import Mathlib

/-!
Model of `algo::deque` from src/deque/deque.h (chunked double-ended queue).

Conventions of the shallow embedding:
* The outer map (`T**` array of `num_chunks + 2` slots) is a
  `List (Option (List (Option α)))`; index 0 is the left sentinel `data - 1`,
  index `k` is the C++ pointer `data + (k - 1)`, so `data` itself is index 1
  and the right sentinel `data + num_chunks` is index `numChunks + 1`.
* A chunk is a `List (Option α)` of length `CHUNK_SIZE`; `some v` is a
  constructed element, `none` an uninitialized slot.  Chunk pointers moving
  around the map (swap_ranges / copies) move the chunk value wholesale,
  which models C++ chunk identity: an iterator's `inner_pointer` is kept as
  the offset within its chunk, which is preserved when the chunk pointer is
  relocated.
* `CHUNK_SIZE<T>` and `CHUNK_PADDING` live in deque_constants.h which is not
  part of the sources; per the spec they are an opaque positive constant and
  an even constant ≥ 2, so they are parameters `CS` / `PAD` here.
-/

namespace AlgoDeque

abbrev Chunk (α : Type) := List (Option α)
abbrev MapL (α : Type) := List (Option (Chunk α))

/-- Modelled from the spec: the iterator of deque_iterator.h is a cursor with
an `outer_pointer` into the map and an `inner_pointer` within a chunk; here
`outer` is the map index and `inner` the offset within the chunk
(`inner_pointer - chunk_begin`). -/
structure DIter where
  outer : Nat
  inner : Nat
deriving DecidableEq, Repr

/-- Linear address of an iterator position, in element slots. -/
def iterLin (CS : Nat) (it : DIter) : Nat := it.outer * CS + it.inner

/-- Modelled from the spec: iterator increment advances `inner_pointer`; on
reaching `chunk_end` it steps to the next chunk. -/
def iterNext (CS : Nat) (it : DIter) : DIter :=
  if it.inner + 1 = CS then ⟨it.outer + 1, 0⟩ else ⟨it.outer, it.inner + 1⟩

/-- Modelled from the spec: iterator decrement, symmetric to increment. -/
def iterPred (CS : Nat) (it : DIter) : DIter :=
  if it.inner = 0 then ⟨it.outer - 1, CS - 1⟩ else ⟨it.outer, it.inner - 1⟩

/-- Modelled from the spec: `to_next_chunk` steps `outer_pointer` to the next
chunk and `inner_pointer` to its `chunk_begin`. -/
def toNextChunk (it : DIter) : DIter := ⟨it.outer + 1, 0⟩

/-- Modelled from the spec: `to_prev_chunk` steps `outer_pointer` to the
previous chunk; `inner_pointer` lands on that chunk's `chunk_end` (offset
`CS`), as required by its uses (rollback in `handle_chunk_end`, backward
bulk moves). -/
def toPrevChunk (CS : Nat) (it : DIter) : DIter := ⟨it.outer - 1, CS⟩

/-- Modelled from the spec: `operator+` computes the new chunk and in-chunk
offset by divmod of `n + (inner_pointer - chunk_begin)`, with floor semantics
for negative deltas.  (Lean's `Int` `/` and `%` are euclidean = floor for a
positive divisor.) -/
def iterAdd (CS : Nat) (it : DIter) (n : Int) : DIter :=
  ⟨((((it.outer : Int) * CS + it.inner + n)) / CS).toNat,
   ((((it.outer : Int) * CS + it.inner + n)) % CS).toNat⟩

/-- Modelled from the spec: `a - b = (a.outer - b.outer) * CS +
(a.inner - a.chunk_begin) - (b.inner - b.chunk_begin)`. -/
def iterSub (CS : Nat) (a b : DIter) : Int :=
  ((a.outer : Int) - b.outer) * CS + ((a.inner : Int) - (b.inner : Int))

/-- Modelled from the spec: `plus_positive(n)` divmod on nonnegative deltas. -/
def plusPositive (CS : Nat) (it : DIter) (n : Nat) : DIter :=
  ⟨it.outer + (it.inner + n) / CS, (it.inner + n) % CS⟩

/-- The deque state: `num_chunks`, the outer map, the allocated sub-range
`[begin_chunk, end_chunk)` (absolute map indices; `data` is index 1), and the
two cursors. -/
structure Deque (α : Type) where
  numChunks : Nat
  map : MapL α
  beginChunk : Nat
  endChunk : Nat
  beginIt : DIter
  endIt : DIter
deriving DecidableEq, Repr

/-- Read a slot of an array of optional cells: a map slot (`*p` for a `T**`)
or an element slot of a chunk; out-of-range reads give `none`. -/
def slotAt {β : Type} (l : List (Option β)) (i : Nat) : Option β := (l[i]?).getD none

/-- Read the element slot at chunk `o`, offset `j`. -/
def readPos (m : MapL α) (o j : Nat) : Option α :=
  match slotAt m o with
  | some ch => slotAt ch j
  | none => none

/-- Write the element slot at chunk `o`, offset `j` (construct/destroy). -/
def writePos (m : MapL α) (o j : Nat) (v : Option α) : MapL α :=
  match slotAt m o with
  | some c => m.set o (some (c.set j v))
  | none => m

/-- A freshly allocated raw chunk: `CS` uninitialized slots. -/
def freshChunk (α : Type) (CS : Nat) : Chunk α := List.replicate CS none

/-- `std::swap` of two map slots. -/
def swapSlots (m : MapL α) (i j : Nat) : MapL α :=
  let vi := slotAt m i
  let vj := slotAt m j
  (m.set i vj).set j vi

/-- `std::swap_ranges(first, first+cnt, dst)` on the map: sequential forward
element-wise swaps, as the C++ algorithm performs them. -/
def swapSeg (m : MapL α) (a b : Nat) : Nat → MapL α
  | 0 => m
  | n + 1 => swapSeg (swapSlots m a b) (a + 1) (b + 1) n

/-- `std::swap_ranges` over `reverse_iterator`s:
`swap_ranges(rev(A), rev(B), rev(C))` swaps positions `(A-1-t, C-1-t)` for
`t = 0, …, (A-B)-1`, in decreasing address order.  `swapSegRev m A C cnt`. -/
def swapSegRev (m : MapL α) (a c : Nat) : Nat → MapL α
  | 0 => m
  | n + 1 => swapSegRev (swapSlots m (a - 1) (c - 1)) (a - 1) (c - 1) n

/-- `std::copy(src+s, src+s+cnt, dst+d)` from one map array into another. -/
def copySeg (src : MapL α) (s : Nat) (dst : MapL α) (d : Nat) : Nat → MapL α
  | 0 => dst
  | n + 1 => copySeg src (s + 1) (dst.set d (slotAt src s)) (d + 1) n

/-- `std::copy_backward(first, first+cnt, dlast)`: copies the `cnt` slots
ending at `last` to end at `dlast`, walking backward. -/
def copySegBack (src : MapL α) (last : Nat) (dst : MapL α) (dlast : Nat) : Nat → MapL α
  | 0 => dst
  | n + 1 =>
      copySegBack src (last - 1) (dst.set (dlast - 1) (slotAt src (last - 1))) (dlast - 1) n

/-- Allocate fresh chunks into map slots `[s, s+cnt)`. -/
def allocRange (CS : Nat) (m : MapL α) (s : Nat) : Nat → MapL α
  | 0 => m
  | n + 1 => allocRange CS (m.set s (some (freshChunk α CS))) (s + 1) n

/-- Deallocate (null out) map slots `[s, s+cnt)`. -/
def deallocRange (m : MapL α) (s : Nat) : Nat → MapL α
  | 0 => m
  | n + 1 => deallocRange (m.set s none) (s + 1) n

/-- Overwrite `cnt` slots of chunk `dc` starting at `dj` with the slots of the
snapshot chunk `sc` starting at `sj`. -/
def overwriteSeg (sc : Chunk α) (sj : Nat) (dc : Chunk α) (dj : Nat) : Nat → Chunk α
  | 0 => dc
  | n + 1 => overwriteSeg sc (sj + 1) (dc.set dj (slotAt sc sj)) (dj + 1) n

/-- One `std::memmove` of `cnt` element slots from chunk `sk` offset `sj` to
chunk `dk` offset `dj`; every `memmove` in the source stays within a single
chunk on both sides.  `memmove` semantics: the destination receives the source
values as they were before the call (safe under overlap). -/
def memmoveChunk (m : MapL α) (sk sj dk dj cnt : Nat) : MapL α :=
  match slotAt m sk, slotAt m dk with
  | some sc, some dc =>
      if sk = dk then m.set sk (some (overwriteSeg sc sj sc dj cnt))
      else m.set dk (some (overwriteSeg sc sj dc dj cnt))
  | _, _ => m

/-- `size()` = `std::distance(begin_iterator, end_iterator)`. -/
def size (CS : Nat) (d : Deque α) : Nat := (iterSub CS d.endIt d.beginIt).toNat

/-- The live slots of the deque, in iteration order, as raw `Option` slots. -/
def toList (CS : Nat) (d : Deque α) : List (Option α) :=
  (List.range (size CS d)).map fun k =>
    let l := iterLin CS d.beginIt + k
    readPos d.map (l / CS) (l % CS)

/-- The allocation loop of `fill_helper`: while `remain > 0`, allocate a chunk
at `end_chunk`, construct its first `min CS (remain - 1)` slots with the
elements `f idx, f (idx+1), …`, and advance; one slot is left for
`end_iterator` and is not constructed. -/
def fillChunks (CS : Nat) (f : Nat → Option α) :
    Nat → Nat → MapL α → Nat → MapL α × Nat
  | 0, _, m, ec => (m, ec)
  | remain + 1, idx, m, ec =>
      if _h : CS = 0 then (m, ec)
      else
        let cap := min CS remain
        let c : Chunk α := (List.range CS).map fun j => if j < cap then f (idx + j) else none
        let step := min CS (remain + 1)
        fillChunks CS f (remain + 1 - step) (idx + step) (m.set ec (some c)) (ec + 1)
termination_by remain => remain
decreasing_by
  omega

/-- `fill_helper(n, filler)`: pre-size the map to
`CHUNK_PADDING + (n + CHUNK_SIZE) / CHUNK_SIZE` chunks (plus 2 sentinels),
place `begin_chunk` at `data + CHUNK_PADDING / 2`, allocate and fill chunks
for `n + 1` slots, and set the cursors. -/
def fill_helper (CS PAD n : Nat) (f : Nat → Option α) : Deque α :=
  let numChunks := PAD + (n + CS) / CS
  let m0 : MapL α := List.replicate (numChunks + 2) none
  let bc := 1 + PAD / 2
  let r := fillChunks CS f (n + 1) 0 m0 bc
  { numChunks := numChunks, map := r.1, beginChunk := bc, endChunk := r.2,
    beginIt := ⟨bc, 0⟩, endIt := iterAdd CS ⟨bc, 0⟩ n }

/-- `deque()` / `deque(allocator)`: no elements. -/
def emptyDeque (α : Type) (CS PAD : Nat) : Deque α :=
  fill_helper CS PAD 0 fun _ => none

/-- `deque(n, value)`: `n` copies of `value`. -/
def fillDeque (CS PAD n : Nat) (v : α) : Deque α :=
  fill_helper CS PAD n fun _ => some v

/-- `center(left, right)`: swap `donation = (right - left) / 2` chunks from the
fuller side to the emptier side (C++ `/` truncates toward zero). -/
def center (d : Deque α) (left right : Int) : Deque α :=
  let donation := Int.tdiv (right - left) 2
  if donation ≥ 0 then
    let don := donation.toNat
    let bc' := d.beginChunk - don
    let m' := swapSeg d.map (d.endChunk - don) bc' don
    { d with map := m', beginChunk := bc', endChunk := d.endChunk - don }
  else
    let don := (-donation).toNat
    let m' := swapSeg d.map d.beginChunk d.endChunk don
    { d with map := m', beginChunk := d.beginChunk + don, endChunk := d.endChunk + don }

/-- `rearrange_end(num_new_chunks, begin_iterator_chunk, end_iterator_chunk)`:
recenter the active chunks inside the existing map so that `k` allocated
chunks follow the live tail. -/
def rearrange_end (CS : Nat) (d : Deque α) (k bic eic : Nat) : Deque α :=
  let numElements := (iterSub CS d.endIt d.beginIt).toNat
  let active := eic - bic + k
  let nbc := 1 + (d.numChunks - active) / 2
  let cnt := eic - bic
  let m1 := swapSeg d.map bic nbc cnt
  let neic := nbc + cnt
  let bIt : DIter := ⟨nbc, d.beginIt.inner⟩
  let d1 := { d with map := m1, beginIt := bIt, endIt := iterAdd CS bIt numElements }
  if d.beginChunk > nbc then
    let coal :=
      if d.beginChunk ≤ neic then (m1, bic)
      else (swapSeg m1 d.beginChunk neic (bic - d.beginChunk), neic + (bic - d.beginChunk))
    let fillPos := coal.2
    let srcBegin := eic - (if d.beginChunk ≤ neic then neic - d.beginChunk else 0)
    let m3 := swapSeg coal.1 srcBegin fillPos (d.endChunk - srcBegin)
    let ec1 := fillPos + (d.endChunk - srcBegin)
    let necFull := nbc + active
    let balanced := ec1 ≤ necFull + 1
    let m4 := allocRange CS m3 ec1 (necFull - ec1)
    let ec2 := max ec1 necFull
    let d2 := { d1 with map := m4, beginChunk := nbc, endChunk := ec2 }
    if balanced then d2
    else center d2 ((nbc : Int) - nbc) ((ec2 : Int) - neic - k)
  else
    center d1 ((nbc : Int) - d.beginChunk) ((d.endChunk : Int) - neic - k)

/-- `reallocate_end(num_new_chunks, begin_iterator_chunk, end_iterator_chunk)`:
allocate a map of `3 * active_chunks + 2` slots, copy the chunk pointers over
with the live chunks starting at offset `active_chunks`, and allocate the
missing right-side chunks. -/
def reallocate_end (CS : Nat) (d : Deque α) (k bic eic : Nat) : Deque α :=
  let numElements := (iterSub CS d.endIt d.beginIt).toNat
  let active := eic - bic + k
  let newNum := active * 3
  let m0 : MapL α := List.replicate (newNum + 2) none
  let nbc := 1 + active
  let nec := nbc + active
  let cnt0 := d.endChunk - bic
  let m1 := copySeg d.map bic m0 nbc cnt0
  let missing := nbc + cnt0
  let needed : Int := (nec : Int) - missing
  let numFree : Int := (bic : Int) - d.beginChunk
  let d2 :=
    if needed ≤ numFree then
      let half := Int.tdiv (numFree - needed) 2
      let remain := ((bic : Int) - needed - half).toNat
      let m2 := copySeg d.map remain m1 missing (bic - remain)
      let ec' := missing + (bic - remain)
      let cnt2 := remain - d.beginChunk
      let m3 := copySegBack d.map remain m2 nbc cnt2
      { d with map := m3, beginChunk := nbc - cnt2, endChunk := ec' }
    else
      let m2 := copySeg d.map d.beginChunk m1 missing (bic - d.beginChunk)
      let missing2 := missing + (bic - d.beginChunk)
      let m3 := allocRange CS m2 missing2 (nec - missing2)
      { d with map := m3, beginChunk := nbc, endChunk := nec }
  let bIt : DIter := ⟨nbc, d.beginIt.inner⟩
  { d2 with numChunks := newNum, beginIt := bIt, endIt := iterAdd CS bIt numElements }

/-- `make_room_end(num_new_chunks)`: compute the active chunk count and either
rearrange in place (`active ≤ num_chunks / 3`) or reallocate the map. -/
def make_room_end (CS : Nat) (d : Deque α) (k : Nat) : Deque α :=
  let bic := d.beginIt.outer
  let eic0 := d.endIt.outer
  -- `end_iterator.inner_pointer != nullptr` ⟺ the slot under `end_iterator`
  -- holds a chunk (a null slot gives `chunk_begin = inner_pointer = nullptr`)
  let eic := if (slotAt d.map eic0).isSome then eic0 + 1 else eic0
  let active := eic - bic + k
  if active ≤ d.numChunks / 3 then rearrange_end CS d k bic eic
  else reallocate_end CS d k bic eic

/-- `handle_chunk_end()`: step past the chunk boundary after a push_back has
filled a chunk; extend the map or allocate the next chunk as needed. -/
def handle_chunk_end (CS : Nat) (d : Deque α) : Deque α :=
  let e := toNextChunk d.endIt
  let d0 := { d with endIt := e }
  if e.outer = 1 + d.numChunks then make_room_end CS d0 1
  else if (slotAt d.map e.outer).isNone then
    { d0 with map := d.map.set e.outer (some (freshChunk α CS)),
              endChunk := d.endChunk + 1 }
  else d0

/-- `push_back(value)`: construct at `end_iterator.inner_pointer`, advance it,
and handle the chunk boundary if it was reached. -/
def push_back (CS : Nat) (d : Deque α) (v : α) : Deque α :=
  let m := writePos d.map d.endIt.outer d.endIt.inner (some v)
  let e : DIter := ⟨d.endIt.outer, d.endIt.inner + 1⟩
  let d1 := { d with map := m, endIt := e }
  if e.inner = CS then handle_chunk_end CS d1 else d1

/-- `pop_back()`: step `end_iterator` back and destroy the element there. -/
def pop_back (CS : Nat) (d : Deque α) : Deque α :=
  let e := iterPred CS d.endIt
  { d with map := writePos d.map e.outer e.inner none, endIt := e }

/-- `pop_front()`: destroy the first element and advance `begin_iterator`. -/
def pop_front (CS : Nat) (d : Deque α) : Deque α :=
  let m := writePos d.map d.beginIt.outer d.beginIt.inner none
  { d with map := m, beginIt := iterNext CS d.beginIt }

/-- `rearrange_begin(num_new_chunks, begin_iterator_chunk, end_iterator_chunk)`:
mirror of `rearrange_end`; recenters the active chunks leaving `k` allocated
chunks before the live head. -/
def rearrange_begin (CS : Nat) (d : Deque α) (k bic eic : Nat) : Deque α :=
  let numElements := (iterSub CS d.endIt d.beginIt).toNat
  let active := eic - bic + k
  let nbc := 1 + (d.numChunks - active) / 2
  let nbic := nbc + k
  let cnt := eic - bic
  let m1 := swapSeg d.map bic nbic cnt
  let neic := nbic + cnt
  let bIt : DIter := ⟨nbic, d.beginIt.inner⟩
  let d1 := { d with map := m1, beginIt := bIt, endIt := iterAdd CS bIt numElements }
  if d.endChunk < neic then
    let coal :=
      if d.endChunk ≥ nbic then (m1, eic)
      else (swapSegRev m1 (d.endChunk - 1) (nbic - 1) (d.endChunk - eic),
            nbic - (d.endChunk - eic))
    let fillPos := coal.2
    let srcEnd := bic + (if d.endChunk ≥ nbic then d.endChunk - nbic else 0)
    let cnt2 := srcEnd - d.beginChunk
    let m3 := swapSegRev coal.1 (srcEnd - 1) fillPos cnt2
    let bc1 := fillPos - cnt2 + 1
    let balanced := bc1 + 1 ≥ nbc
    let m4 := allocRange CS m3 nbc (bc1 - nbc)
    let bc2 := min bc1 nbc
    let d2 := { d1 with map := m4, beginChunk := bc2, endChunk := neic }
    if balanced then d2
    else center d2 ((nbic : Int) - bc2 - k) ((neic : Int) - neic)
  else
    center d1 ((nbic : Int) - d.beginChunk - k) ((d.endChunk : Int) - neic)

/-- `reallocate_begin(num_new_chunks, begin_iterator_chunk, end_iterator_chunk)`:
mirror of `reallocate_end`. -/
def reallocate_begin (CS : Nat) (d : Deque α) (k bic eic : Nat) : Deque α :=
  let numElements := (iterSub CS d.endIt d.beginIt).toNat
  let active := eic - bic + k
  let newNum := active * 3
  let m0 : MapL α := List.replicate (newNum + 2) none
  let nbc := 1 + active
  let nec := nbc + active
  let cnt0 := eic - d.beginChunk
  let m1 := copySegBack d.map eic m0 nec cnt0
  let missingEnd := nec - cnt0
  let needed : Int := (missingEnd : Int) - nbc
  let numFree : Int := (d.endChunk : Int) - eic
  let d2 :=
    if needed ≤ numFree then
      let half := Int.tdiv (numFree - needed) 2
      let remain := ((eic : Int) + needed + half).toNat
      let cnt1 := remain - eic
      let m2 := copySegBack d.map remain m1 missingEnd cnt1
      let bc' := missingEnd - cnt1
      let cnt2 := d.endChunk - remain
      let m3 := copySeg d.map remain m2 nec cnt2
      { d with map := m3, beginChunk := bc', endChunk := nec + cnt2 }
    else
      let cnt1 := d.endChunk - eic
      let m2 := copySegBack d.map d.endChunk m1 missingEnd cnt1
      let fillEnd := missingEnd - cnt1
      let m3 := allocRange CS m2 nbc (fillEnd - nbc)
      { d with map := m3, beginChunk := nbc, endChunk := nec }
  let bIt : DIter := ⟨nbc + k, d.beginIt.inner⟩
  { d2 with numChunks := newNum, beginIt := bIt, endIt := iterAdd CS bIt numElements }

/-- `make_room_begin(num_new_chunks)`. -/
def make_room_begin (CS : Nat) (d : Deque α) (k : Nat) : Deque α :=
  let bic := d.beginIt.outer
  let eic := d.endIt.outer + 1
  let active := eic - bic + k
  if active ≤ d.numChunks / 3 then rearrange_begin CS d k bic eic
  else reallocate_begin CS d k bic eic

/-- `handle_chunk_begin(args…)`: select or allocate a chunk before the current
head chunk and construct the new element in its last slot.
(`begin_iterator.inner_pointer == *data` holds exactly when the begin cursor
sits at offset 0 of the chunk stored at `data`, i.e. `outer = 1`.) -/
def handle_chunk_begin (CS : Nat) (d : Deque α) (v : α) : Deque α :=
  let d1 :=
    if d.beginIt.outer = 1 ∧ d.beginIt.inner = 0 then
      let d' := make_room_begin CS d 1
      { d' with beginIt := ⟨d'.beginIt.outer - 1, d'.beginIt.inner⟩ }
    else if d.beginIt.outer = d.beginChunk then
      { d with map := d.map.set (d.beginIt.outer - 1) (some (freshChunk α CS)),
               beginIt := ⟨d.beginIt.outer - 1, d.beginIt.inner⟩,
               beginChunk := d.beginChunk - 1 }
    else
      { d with beginIt := ⟨d.beginIt.outer - 1, d.beginIt.inner⟩ }
  let b : DIter := ⟨d1.beginIt.outer, CS - 1⟩
  { d1 with map := writePos d1.map b.outer b.inner (some v), beginIt := b }

/-- `push_front(value)`: construct before `begin_iterator` within the current
chunk, or go through `handle_chunk_begin`. -/
def push_front (CS : Nat) (d : Deque α) (v : α) : Deque α :=
  if d.beginIt.inner ≠ 0 then
    { d with map := writePos d.map d.beginIt.outer (d.beginIt.inner - 1) (some v),
             beginIt := ⟨d.beginIt.outer, d.beginIt.inner - 1⟩ }
  else handle_chunk_begin CS d v

/-- `deque_memmove_helper(curr, dest, amount)`: move `amount` element slots
from `curr` to `dest`, splitting at the destination chunk boundary. -/
def deque_memmove_helper (CS : Nat) (m : MapL α) (curr dest : DIter) (amount : Nat) :
    MapL α × DIter × DIter :=
  let space := CS - dest.inner
  if amount ≥ space then
    let m1 := memmoveChunk m curr.outer curr.inner dest.outer dest.inner space
    let curr1 : DIter := ⟨curr.outer, curr.inner + space⟩
    let dest1 := toNextChunk dest
    let m2 := memmoveChunk m1 curr1.outer curr1.inner dest1.outer dest1.inner (amount - space)
    (m2, curr1, ⟨dest1.outer, dest1.inner + (amount - space)⟩)
  else
    let m1 := memmoveChunk m curr.outer curr.inner dest.outer dest.inner amount
    (m1, curr, ⟨dest.outer, dest.inner + amount⟩)

/-- The whole-chunk loop of `deque_move_with_memmove`; the fuel is the number
of chunk steps `last.outer - first.outer`. -/
def deque_move_loop (CS : Nat) (m : MapL α) (first dest : DIter) :
    Nat → MapL α × DIter × DIter
  | 0 => (m, first, dest)
  | n + 1 =>
      let space := CS - dest.inner
      let m1 := memmoveChunk m first.outer first.inner dest.outer dest.inner space
      let first1 : DIter := ⟨first.outer, first.inner + space⟩
      let dest1 := toNextChunk dest
      let m2 := memmoveChunk m1 first1.outer first1.inner dest1.outer dest1.inner (CS - space)
      deque_move_loop CS m2 (toNextChunk first1) ⟨dest1.outer, dest1.inner + (CS - space)⟩ n

/-- `deque_move_with_memmove(first, last, dest)` (the trivially-copyable bulk
mover): returns the new map and the final destination iterator. -/
def deque_move_with_memmove (CS : Nat) (m : MapL α) (first last dest : DIter) :
    MapL α × DIter :=
  let s0 :=
    if first.outer ≠ last.outer then
      let amount := CS - first.inner
      let r := deque_memmove_helper CS m first dest amount
      (r.1, toNextChunk r.2.1, r.2.2)
    else (m, first, dest)
  let s1 := deque_move_loop CS s0.1 s0.2.1 s0.2.2 (last.outer - s0.2.1.outer)
  let amount := last.inner - s1.2.1.inner
  let r := deque_memmove_helper CS s1.1 s1.2.1 s1.2.2 amount
  (r.1, r.2.2)

/-- `deque_memmove_backward_helper(curr, d_last, amount)`. -/
def deque_memmove_backward_helper (CS : Nat) (m : MapL α) (curr dlast : DIter)
    (amount : Nat) : MapL α × DIter × DIter :=
  let space := dlast.inner
  if amount ≥ space then
    let curr1 : DIter := ⟨curr.outer, curr.inner - space⟩
    let m1 := memmoveChunk m curr1.outer curr1.inner dlast.outer 0 space
    let dlast1 := toPrevChunk CS dlast
    let remain := amount - space
    let dlast2 : DIter := ⟨dlast1.outer, dlast1.inner - remain⟩
    let curr2 : DIter := ⟨curr1.outer, curr1.inner - remain⟩
    let m2 := memmoveChunk m1 curr2.outer curr2.inner dlast2.outer dlast2.inner remain
    (m2, curr2, dlast2)
  else
    let dlast1 : DIter := ⟨dlast.outer, dlast.inner - amount⟩
    let curr1 : DIter := ⟨curr.outer, curr.inner - amount⟩
    let m1 := memmoveChunk m curr1.outer curr1.inner dlast1.outer dlast1.inner amount
    (m1, curr1, dlast1)

/-- The whole-chunk loop of `deque_move_backwards_with_memmove`. -/
def deque_move_back_loop (CS : Nat) (m : MapL α) (last dlast : DIter) :
    Nat → MapL α × DIter × DIter
  | 0 => (m, last, dlast)
  | n + 1 =>
      let space := dlast.inner
      let last1 : DIter := ⟨last.outer, last.inner - space⟩
      let m1 := memmoveChunk m last1.outer last1.inner dlast.outer 0 space
      let dlast1 : DIter := ⟨dlast.outer - 1, space⟩
      let m2 := memmoveChunk m1 last1.outer 0 dlast1.outer dlast1.inner (CS - space)
      deque_move_back_loop CS m2 (toPrevChunk CS last1) dlast1 n

/-- `deque_move_backwards_with_memmove(first, last, d_last)`. -/
def deque_move_backwards_with_memmove (CS : Nat) (m : MapL α) (first last dlast : DIter) :
    MapL α × DIter :=
  if first = last then (m, dlast)
  else
    let last0 := if last.inner = 0 then toPrevChunk CS last else last
    let dlast0 := if dlast.inner = 0 then toPrevChunk CS dlast else dlast
    let s0 :=
      if last0.outer ≠ first.outer then
        let r := deque_memmove_backward_helper CS m last0 dlast0 last0.inner
        (r.1, toPrevChunk CS r.2.1, r.2.2)
      else (m, last0, dlast0)
    let s1 := deque_move_back_loop CS s0.1 s0.2.1 s0.2.2 (s0.2.1.outer - first.outer)
    let amount := s1.2.1.inner - first.inner
    let r := deque_memmove_backward_helper CS s1.1 s1.2.1 s1.2.2 amount
    let fin := r.2.2
    (r.1, if fin.inner = CS then toNextChunk fin else fin)

/-- Modelled from the spec: `try_uninitialized_move` (common.h) constructs the
values of `[src, src+cnt)` into the uninitialized range starting at `dst`,
moving forward; moved-from sources stay constructed, so the model copies. -/
def uninit_move_fwd (CS : Nat) (m : MapL α) (src dst : DIter) : Nat → MapL α
  | 0 => m
  | n + 1 =>
      uninit_move_fwd CS (writePos m dst.outer dst.inner (readPos m src.outer src.inner))
        (iterNext CS src) (iterNext CS dst) n

/-- Modelled from the spec: `try_uninitialized_move` over reverse iterators:
constructs the `cnt` values ending at `srcLast` into the uninitialized range
ending at `dstLast`, walking backward. -/
def uninit_move_rev (CS : Nat) (m : MapL α) (srcLast dstLast : DIter) : Nat → MapL α
  | 0 => m
  | n + 1 =>
      let s := iterPred CS srcLast
      let t := iterPred CS dstLast
      uninit_move_rev CS (writePos m t.outer t.inner (readPos m s.outer s.inner)) s t n

/-- Modelled from the spec: `uninitialized_fill` / `std::fill` write `cnt`
copies of `v` from `it` on (construction and assignment coincide here). -/
def fillRange (CS : Nat) (m : MapL α) (it : DIter) (v : α) : Nat → MapL α
  | 0 => m
  | n + 1 => fillRange CS (writePos m it.outer it.inner (some v)) (iterNext CS it) v n

/-- Modelled from the spec: `destroy(first, first+cnt)` destroys forward. -/
def destroyRange (CS : Nat) (m : MapL α) (it : DIter) : Nat → MapL α
  | 0 => m
  | n + 1 => destroyRange CS (writePos m it.outer it.inner none) (iterNext CS it) n

/-- Modelled from the spec: `destroy` over reverse iterators: destroys the
`cnt` slots below `it`, walking downward. -/
def destroyRangeDown (CS : Nat) (m : MapL α) (it : DIter) : Nat → MapL α
  | 0 => m
  | n + 1 =>
      let p := iterPred CS it
      destroyRangeDown CS (writePos m p.outer p.inner none) p n

/-- `insert_shift_begin(pos, space, &uninitialized_begin, &initialized_begin)`:
open a gap of `space` slots ending at `pos` by shifting `[begin, pos)` left.
Returns the updated deque, `uninitialized_begin`, and `initialized_begin`. -/
def insert_shift_begin (CS : Nat) (d : Deque α) (pos : DIter) (space : Nat) :
    Deque α × DIter × DIter :=
  let amount : Int := space
  let offset := iterSub CS pos d.beginIt
  let remain := iterSub CS d.beginIt ⟨1, 0⟩
  let d1 :=
    if remain < amount then
      let ghostBegin := remain - amount
      let gbc := Int.tdiv ghostBegin CS - (if Int.tmod ghostBegin CS < 0 then 1 else 0)
      make_room_begin CS d ((d.beginIt.outer : Int) - 1 - gbc).toNat
    else
      let fillStart := (iterAdd CS d.beginIt (-amount)).outer
      if fillStart < d.beginChunk then
        { d with map := allocRange CS d.map fillStart (d.beginChunk - fillStart),
                 beginChunk := fillStart }
      else d
  let pos1 := iterAdd CS d1.beginIt offset
  let newBegin := iterAdd CS d1.beginIt (-amount)
  let ub := iterAdd CS newBegin offset
  if offset = 0 then
    ({ d1 with beginIt := newBegin }, ub, iterAdd CS ub amount)
  else
    let usEnd :=
      if iterLin CS ub ≤ iterLin CS d1.beginIt then pos1
      else iterAdd CS pos1 (-(iterSub CS ub d1.beginIt))
    let ucnt := (iterSub CS usEnd d1.beginIt).toNat
    let m1 := uninit_move_fwd CS d1.map d1.beginIt newBegin ucnt
    let cont := iterAdd CS newBegin ucnt
    let m2 := (deque_move_with_memmove CS m1 usEnd pos1 cont).1
    let ib := if iterLin CS ub ≤ iterLin CS d1.beginIt then d1.beginIt else ub
    ({ d1 with map := m2, beginIt := newBegin }, ub, ib)

/-- `insert_shift_end(pos, space, &initialized_begin, &uninitialized_begin)`:
open a gap of `space` slots starting at `pos` by shifting `[pos, end)` right.
Returns the updated deque, `initialized_begin`, and `uninitialized_begin`. -/
def insert_shift_end (CS : Nat) (d : Deque α) (pos : DIter) (space : Nat) :
    Deque α × DIter × DIter :=
  let amount : Int := space
  let offset := iterSub CS d.endIt pos
  let remain := iterSub CS ⟨1 + d.numChunks, 0⟩ d.endIt
  let ghostEnd := iterSub CS d.endIt ⟨1, 0⟩ + amount
  let newEndChunkIdx := (Int.tdiv ghostEnd CS + 2).toNat
  let d1 :=
    if remain ≤ amount then
      make_room_end CS d (newEndChunkIdx - (d.endIt.outer + 1))
    else
      let fillEnd := (iterAdd CS d.endIt amount).outer + 1
      if d.endChunk < fillEnd then
        { d with map := allocRange CS d.map d.endChunk (fillEnd - d.endChunk),
                 endChunk := fillEnd }
      else d
  let pos1 := iterAdd CS d1.endIt (-offset)
  let newEnd := if space = 1 then iterNext CS d1.endIt else iterAdd CS d1.endIt amount
  if offset = 0 then
    ({ d1 with endIt := newEnd }, pos1, pos1)
  else
    let mdb := iterAdd CS newEnd (-offset)
    let usb :=
      if iterLin CS mdb ≥ iterLin CS d1.endIt then pos1
      else iterAdd CS pos1 (iterSub CS d1.endIt mdb)
    let m1 := uninit_move_rev CS d1.map d1.endIt newEnd ((iterSub CS d1.endIt usb).toNat)
    let icount := iterSub CS usb pos1
    let m2 := (deque_move_backwards_with_memmove CS m1 pos1 usb (iterAdd CS mdb icount)).1
    let ub :=
      if iterLin CS mdb ≤ iterLin CS d1.endIt then
        (if space = 1 then iterNext CS pos1 else iterAdd CS pos1 amount)
      else d1.endIt
    ({ d1 with map := m2, endIt := newEnd }, pos1, ub)

/-- `insert_single_helper(pos, args…)` (single-element insert / emplace). -/
def insert_single (CS : Nat) (d : Deque α) (pos : DIter) (v : α) : Deque α × DIter :=
  if pos = d.beginIt then
    let d1 := push_front CS d v
    (d1, d1.beginIt)
  else if pos = d.endIt then
    let d1 := push_back CS d v
    (d1, iterPred CS d1.endIt)
  else
    let offset := (iterSub CS pos d.beginIt).toNat
    if offset * 2 ≤ size CS d then
      let r := insert_shift_begin CS d pos 1
      let ib := r.2.2
      ({ r.1 with map := writePos r.1.map ib.outer ib.inner (some v) }, ib)
    else
      let r := insert_shift_end CS d pos 1
      let ib := r.2.1
      ({ r.1 with map := writePos r.1.map ib.outer ib.inner (some v) }, ib)

/-- `insert(pos, count, value)`. -/
def insert_count (CS : Nat) (d : Deque α) (pos : DIter) (count : Nat) (v : α) :
    Deque α × DIter :=
  if count = 1 then insert_single CS d pos v
  else
    let offset := (iterSub CS pos d.beginIt).toNat
    if offset * 2 ≤ size CS d then
      let r := insert_shift_begin CS d pos count
      let ub := r.2.1
      let ib := r.2.2
      let ucnt := (iterSub CS ib ub).toNat
      let m1 := fillRange CS r.1.map ub v ucnt
      let m2 := fillRange CS m1 ib v (count - ucnt)
      let d2 := { r.1 with map := m2 }
      (d2, iterAdd CS d2.beginIt offset)
    else
      let r := insert_shift_end CS d pos count
      let ib := r.2.1
      let ub := r.2.2
      let icnt := (iterSub CS ub ib).toNat
      let m1 := fillRange CS r.1.map ib v icnt
      let m2 := fillRange CS m1 ub v (count - icnt)
      let d2 := { r.1 with map := m2 }
      (d2, iterAdd CS d2.beginIt offset)

/-- `erase_shift_begin(first, last)`: shift `[begin, first)` right onto the
hole, destroy the orphaned prefix, advance `begin_iterator`. -/
def erase_shift_begin (CS : Nat) (d : Deque α) (first last : DIter) : Deque α :=
  let m1 := (deque_move_backwards_with_memmove CS d.map d.beginIt first last).1
  let cnt := (iterSub CS last first).toNat
  let newBegin := iterAdd CS d.beginIt cnt
  let m2 := destroyRange CS m1 d.beginIt cnt
  { d with map := m2, beginIt := newBegin }

/-- `erase_shift_end(first, last)`: shift `[last, end)` left onto the hole,
destroy the orphaned suffix, retreat `end_iterator`. -/
def erase_shift_end (CS : Nat) (d : Deque α) (first last : DIter) : Deque α :=
  let m1 := (deque_move_with_memmove CS d.map last d.endIt first).1
  let cnt := (iterSub CS last first).toNat
  let m2 := destroyRangeDown CS m1 d.endIt cnt
  let newEnd := iterNext CS (iterAdd CS (iterPred CS d.endIt) (-(cnt : Int)))
  { d with map := m2, endIt := newEnd }

/-- `erase(first, last)` (range erase). -/
def erase_range (CS : Nat) (d : Deque α) (first last : DIter) : Deque α × DIter :=
  let before := iterSub CS first d.beginIt
  let after := iterSub CS d.endIt last
  let d1 := if before ≤ after then erase_shift_begin CS d first last
            else erase_shift_end CS d first last
  (d1, iterAdd CS d1.beginIt before)

/-- `erase(pos)` (single-element erase). -/
def erase_single (CS : Nat) (d : Deque α) (pos : DIter) : Deque α × DIter :=
  if pos = d.beginIt then
    let d1 := pop_front CS d
    (d1, d1.beginIt)
  else if iterSub CS d.endIt pos = 1 then
    let d1 := pop_back CS d
    (d1, d1.endIt)
  else
    let offset := iterSub CS pos d.beginIt
    let d1 :=
      if offset.toNat * 2 ≤ size CS d then erase_shift_begin CS d pos (iterNext CS pos)
      else erase_shift_end CS d pos (iterNext CS pos)
    (d1, iterAdd CS d1.beginIt offset)

/-- `clear()`: destroy everything and recenter the cursors. -/
def clear (CS : Nat) (d : Deque α) : Deque α :=
  let m := destroyRange CS d.map d.beginIt (size CS d)
  let b :=
    if d.beginChunk ≠ d.endChunk then
      iterAdd CS ⟨d.beginChunk, 0⟩ (((d.endChunk - d.beginChunk) * CS / 2 : Nat) : Int)
    else d.beginIt
  { d with map := m, beginIt := b, endIt := b }

/-- `assign(count, value)`: `clear()` then `insert(begin, count, value)`. -/
def assign (CS : Nat) (d : Deque α) (count : Nat) (v : α) : Deque α :=
  let d1 := clear CS d
  if count = 0 then d1 else (insert_count CS d1 d1.beginIt count v).1

/-- `resize(count, value)`: erase the tail or append copies of `value`. -/
def resize (CS : Nat) (d : Deque α) (count : Nat) (v : α) : Deque α :=
  let numElements := size CS d
  if count = numElements then d
  else if count < numElements then
    (erase_range CS d (iterAdd CS d.endIt (-((numElements - count : Nat) : Int))) d.endIt).1
  else
    let extra := count - numElements
    let r := insert_shift_end CS d d.endIt extra
    { r.1 with map := fillRange CS r.1.map r.2.2 v extra }

/-- `swap(other)`: pointwise swap of every owned field. -/
def swapDeques (a b : Deque α) : Deque α × Deque α := (b, a)

/-- `shrink_to_fit()`. -/
def shrink_to_fit (CS PAD : Nat) (d : Deque α) : Deque α :=
  let bic := d.beginIt.outer
  let eic := d.endIt.outer + 1
  let ghostCap := d.numChunks * CS
  let minCap := PAD * CS
  let numElements := size CS d
  let needed := numElements + 1
  let occ := (eic - bic) * CS
  if needed + CS > occ ∧ (occ = ghostCap ∨ occ ≤ minCap) then d
  else
    let step1 :=
      if needed + CS ≤ occ then
        let nb : DIter := ⟨d.beginIt.outer, 0⟩
        let uam := min ((iterSub CS d.beginIt nb).toNat) numElements
        let isb := iterAdd CS d.beginIt (uam : Int)
        let m1 := uninit_move_fwd CS d.map d.beginIt nb uam
        let m2 := (deque_move_with_memmove CS m1 isb d.endIt (iterAdd CS nb (uam : Int))).1
        let m3 := destroyRange CS m2 (iterAdd CS d.endIt (-(uam : Int))) uam
        ({ d with map := m3, beginIt := nb, endIt := iterAdd CS nb (numElements : Int) },
         eic - 1)
      else (d, eic)
    let d1 := step1.1
    let eic1 := step1.2
    let m4 := deallocRange d1.map d1.beginChunk (bic - d1.beginChunk)
    let m5 := deallocRange m4 eic1 (d1.endChunk - eic1)
    let d2 := { d1 with map := m5, beginChunk := bic, endChunk := eic1 }
    let newNum := (needed + CS - 1) / CS
    let mN : MapL α := List.replicate (newNum + 2) none
    let mN1 := copySeg d2.map bic mN 1 (eic1 - bic)
    { numChunks := newNum, map := mN1, beginChunk := 1, endChunk := 1 + (eic1 - bic),
      beginIt := ⟨1, d2.beginIt.inner⟩,
      endIt := iterAdd CS ⟨1, d2.beginIt.inner⟩ (numElements : Int) }

/-- Modelled from the spec: `uninitialized_copy` from another deque's range
into this deque's uninitialized slots, forward. -/
def uninit_copy_between (CS : Nat) (srcMap : MapL α) (m : MapL α) (src dst : DIter) :
    Nat → MapL α
  | 0 => m
  | n + 1 =>
      uninit_copy_between CS srcMap
        (writePos m dst.outer dst.inner (readPos srcMap src.outer src.inner))
        (iterNext CS src) (iterNext CS dst) n

/-- `operator=(const deque&)` (copy assignment).  The `aliased` flag models the
pointer test `this == &other`; the in-place branch models the
nothrow-copy/destruct fast path, which applies when the destination's chunk
capacity suffices; otherwise copy-and-swap replaces the state with a copy of
`other` (in a value model, with `other` itself). -/
def assignOp (CS : Nat) (d other : Deque α) (aliased : Bool) : Deque α :=
  if aliased then d
  else
    let totalCapacity := (d.endChunk - d.beginChunk) * CS
    let otherSize := size CS other
    if totalCapacity ≥ otherSize then
      let m1 := destroyRange CS d.map d.beginIt (size CS d)
      let b := iterAdd CS ⟨d.beginChunk, 0⟩ (((totalCapacity - otherSize) / 2 : Nat) : Int)
      let m2 := uninit_copy_between CS other.map m1 other.beginIt b otherSize
      { d with map := m2, beginIt := b, endIt := iterAdd CS b (otherSize : Int) }
    else other

/-- The spec's wording of the constructor map size:
`CHUNK_PADDING + ⌈(n + CHUNK_SIZE) / CHUNK_SIZE⌉` with exact (ceiling)
division, stated for comparison with `fill_helper`'s floor division. -/
def spec_num_chunks (CS PAD n : Nat) : Nat := PAD + (n + CS + (CS - 1)) / CS

/-!  Allocation-failure variants.  An allocator is modelled by a budget of
successful allocations; each `allocate` call consumes one unit and throws when
the budget is exhausted.  A thrown exception carries the deque state as it is
at the moment the exception escapes the function (after any catch handler has
run), so `Except.error d'` means "the exception propagates and the deque now
reads `d'`". -/

/-- One allocator call: consume a unit of budget or fail. -/
def allocTick : Nat → Except Unit Nat
  | 0 => .error ()
  | b + 1 => .ok b

/-- The allocation loop of `rearrange_end` (`while (end_chunk < new_end_chunk)
{ *end_chunk = allocate; ++end_chunk; }`), which updates `end_chunk` on the
fly and keeps already-allocated chunks on failure; the last argument is the
number of loop iterations, `new_end_chunk - end_chunk`. -/
def rearrange_alloc_loop (CS : Nat) (m : MapL α) (ec : Nat) (b : Nat) :
    Nat → Except (MapL α × Nat) (MapL α × Nat × Nat)
  | 0 => .ok (m, ec, b)
  | fuel + 1 =>
      match allocTick b with
      | .error _ => .error (m, ec)
      | .ok b' =>
          rearrange_alloc_loop CS (m.set ec (some (freshChunk α CS))) (ec + 1) b' fuel

/-- `rearrange_end` under a failing allocator: only its chunk-allocation loop
can throw, and it deliberately keeps the rearranged state (`begin_chunk`,
`end_chunk`, cursors updated on the fly; no rollback of the swaps). -/
def rearrange_end_f (CS : Nat) (d : Deque α) (k bic eic : Nat) (b : Nat) :
    Except (Deque α) (Deque α × Nat) :=
  let numElements := (iterSub CS d.endIt d.beginIt).toNat
  let active := eic - bic + k
  let nbc := 1 + (d.numChunks - active) / 2
  let cnt := eic - bic
  let m1 := swapSeg d.map bic nbc cnt
  let neic := nbc + cnt
  let bIt : DIter := ⟨nbc, d.beginIt.inner⟩
  let d1 := { d with map := m1, beginIt := bIt, endIt := iterAdd CS bIt numElements }
  if d.beginChunk > nbc then
    let coal :=
      if d.beginChunk ≤ neic then (m1, bic)
      else (swapSeg m1 d.beginChunk neic (bic - d.beginChunk), neic + (bic - d.beginChunk))
    let fillPos := coal.2
    let srcBegin := eic - (if d.beginChunk ≤ neic then neic - d.beginChunk else 0)
    let m3 := swapSeg coal.1 srcBegin fillPos (d.endChunk - srcBegin)
    let ec1 := fillPos + (d.endChunk - srcBegin)
    let necFull := nbc + active
    let balanced := ec1 ≤ necFull + 1
    match rearrange_alloc_loop CS m3 ec1 b (necFull - ec1) with
    | .error r => .error { d1 with map := r.1, beginChunk := nbc, endChunk := r.2 }
    | .ok r =>
        let d2 := { d1 with map := r.1, beginChunk := nbc, endChunk := r.2.1 }
        if balanced then .ok (d2, r.2.2)
        else .ok (center d2 ((nbc : Int) - nbc) ((r.2.1 : Int) - neic - k), r.2.2)
  else
    .ok (center d1 ((nbc : Int) - d.beginChunk) ((d.endChunk : Int) - neic - k), b)

/-- The chunk-allocation loop of `reallocate_end`, whose catch handler frees
exactly the chunks allocated in this call before rethrowing. -/
def realloc_alloc_loop (CS : Nat) (m : MapL α) (s : Nat) (b : Nat) :
    Nat → Except Unit (MapL α × Nat)
  | 0 => .ok (m, b)
  | fuel + 1 =>
      match allocTick b with
      | .error _ => .error ()
      | .ok b' => realloc_alloc_loop CS (m.set s (some (freshChunk α CS))) (s + 1) b' fuel

/-- `reallocate_end` under a failing allocator.  All allocations (the new map
array, then any missing chunks) happen before any state of `d` is updated, and
every failure path frees what this call allocated, so a throw leaves the deque
untouched: the error carries `d` itself. -/
def reallocate_end_f (CS : Nat) (d : Deque α) (k bic eic : Nat) (b : Nat) :
    Except (Deque α) (Deque α × Nat) :=
  match allocTick b with
  | .error _ => .error d
  | .ok b1 =>
    let numElements := (iterSub CS d.endIt d.beginIt).toNat
    let active := eic - bic + k
    let newNum := active * 3
    let m0 : MapL α := List.replicate (newNum + 2) none
    let nbc := 1 + active
    let nec := nbc + active
    let cnt0 := d.endChunk - bic
    let m1 := copySeg d.map bic m0 nbc cnt0
    let missing := nbc + cnt0
    let needed : Int := (nec : Int) - missing
    let numFree : Int := (bic : Int) - d.beginChunk
    if needed ≤ numFree then
      let half := Int.tdiv (numFree - needed) 2
      let remain := ((bic : Int) - needed - half).toNat
      let m2 := copySeg d.map remain m1 missing (bic - remain)
      let ec' := missing + (bic - remain)
      let cnt2 := remain - d.beginChunk
      let m3 := copySegBack d.map remain m2 nbc cnt2
      let bIt : DIter := ⟨nbc, d.beginIt.inner⟩
      .ok ({ d with map := m3, beginChunk := nbc - cnt2, endChunk := ec',
                    numChunks := newNum, beginIt := bIt,
                    endIt := iterAdd CS bIt numElements }, b1)
    else
      let m2 := copySeg d.map d.beginChunk m1 missing (bic - d.beginChunk)
      let missing2 := missing + (bic - d.beginChunk)
      match realloc_alloc_loop CS m2 missing2 b1 (nec - missing2) with
      | .error _ => .error d
      | .ok r =>
          let bIt : DIter := ⟨nbc, d.beginIt.inner⟩
          .ok ({ d with map := r.1, beginChunk := nbc, endChunk := nec,
                        numChunks := newNum, beginIt := bIt,
                        endIt := iterAdd CS bIt numElements }, r.2)

/-- `make_room_end` under a failing allocator. -/
def make_room_end_f (CS : Nat) (d : Deque α) (k : Nat) (b : Nat) :
    Except (Deque α) (Deque α × Nat) :=
  let bic := d.beginIt.outer
  let eic0 := d.endIt.outer
  let eic := if (slotAt d.map eic0).isSome then eic0 + 1 else eic0
  let active := eic - bic + k
  if active ≤ d.numChunks / 3 then rearrange_end_f CS d k bic eic b
  else reallocate_end_f CS d k bic eic b

/-- `handle_chunk_end` under a failing allocator: on any exception, step
`end_iterator` back to the previous chunk, decrement `inner_pointer`, destroy
the just-constructed element, and rethrow. -/
def handle_chunk_end_f (CS : Nat) (d : Deque α) (b : Nat) :
    Except (Deque α) (Deque α × Nat) :=
  let e := toNextChunk d.endIt
  let d0 := { d with endIt := e }
  let attempt : Except (Deque α) (Deque α × Nat) :=
    if e.outer = 1 + d.numChunks then make_room_end_f CS d0 1 b
    else if (slotAt d.map e.outer).isNone then
      match allocTick b with
      | .error _ => .error d0
      | .ok b' =>
          .ok ({ d0 with map := d.map.set e.outer (some (freshChunk α CS)),
                         endChunk := d.endChunk + 1 }, b')
    else .ok (d0, b)
  match attempt with
  | .ok r => .ok r
  | .error dE =>
      let e1 := toPrevChunk CS dE.endIt
      let e2 : DIter := ⟨e1.outer, e1.inner - 1⟩
      .error { dE with map := writePos dE.map e2.outer e2.inner none, endIt := e2 }

/-- `push_back` under a failing allocator. -/
def push_back_f (CS : Nat) (d : Deque α) (v : α) (b : Nat) :
    Except (Deque α) (Deque α × Nat) :=
  let m := writePos d.map d.endIt.outer d.endIt.inner (some v)
  let e : DIter := ⟨d.endIt.outer, d.endIt.inner + 1⟩
  let d1 := { d with map := m, endIt := e }
  if e.inner = CS then handle_chunk_end_f CS d1 b else .ok (d1, b)

/-- `shrink_to_fit` under a failing allocator: the only allocation is the new
(smaller) map array, which the code performs after compacting the elements and
after freeing the spare chunks; a failure there escapes with that intermediate
(compacted, chunk-freed) state. -/
def shrink_to_fit_f (CS PAD : Nat) (d : Deque α) (b : Nat) :
    Except (Deque α) (Deque α × Nat) :=
  let bic := d.beginIt.outer
  let eic := d.endIt.outer + 1
  let ghostCap := d.numChunks * CS
  let minCap := PAD * CS
  let numElements := size CS d
  let needed := numElements + 1
  let occ := (eic - bic) * CS
  if needed + CS > occ ∧ (occ = ghostCap ∨ occ ≤ minCap) then .ok (d, b)
  else
    let step1 :=
      if needed + CS ≤ occ then
        let nb : DIter := ⟨d.beginIt.outer, 0⟩
        let uam := min ((iterSub CS d.beginIt nb).toNat) numElements
        let isb := iterAdd CS d.beginIt (uam : Int)
        let m1 := uninit_move_fwd CS d.map d.beginIt nb uam
        let m2 := (deque_move_with_memmove CS m1 isb d.endIt (iterAdd CS nb (uam : Int))).1
        let m3 := destroyRange CS m2 (iterAdd CS d.endIt (-(uam : Int))) uam
        ({ d with map := m3, beginIt := nb, endIt := iterAdd CS nb (numElements : Int) },
         eic - 1)
      else (d, eic)
    let d1 := step1.1
    let eic1 := step1.2
    let m4 := deallocRange d1.map d1.beginChunk (bic - d1.beginChunk)
    let m5 := deallocRange m4 eic1 (d1.endChunk - eic1)
    let d2 := { d1 with map := m5, beginChunk := bic, endChunk := eic1 }
    match allocTick b with
    | .error _ => .error d2
    | .ok b1 =>
      let newNum := (needed + CS - 1) / CS
      let mN : MapL α := List.replicate (newNum + 2) none
      let mN1 := copySeg d2.map bic mN 1 (eic1 - bic)
      .ok ({ numChunks := newNum, map := mN1, beginChunk := 1,
             endChunk := 1 + (eic1 - bic), beginIt := ⟨1, d2.beginIt.inner⟩,
             endIt := iterAdd CS ⟨1, d2.beginIt.inner⟩ (numElements : Int) }, b1)

/-- The four end operations of the algebraic push/pop law. -/
inductive EndOp (α : Type) where
  | pushBack (v : α)
  | pushFront (v : α)
  | popBack
  | popFront

/-- Apply an end operation to the deque. -/
def applyEndOp (CS : Nat) (d : Deque α) : EndOp α → Deque α
  | .pushBack v => push_back CS d v
  | .pushFront v => push_front CS d v
  | .popBack => pop_back CS d
  | .popFront => pop_front CS d

/-- The spec's in-order reduction of pushes and pops on a plain sequence. -/
def specEndOp (l : List α) : EndOp α → List α
  | .pushBack v => l ++ [v]
  | .pushFront v => v :: l
  | .popBack => l.dropLast
  | .popFront => l.tail

/-- A sequence of end operations never pops an empty deque. -/
def NoUnderflow : List α → List (EndOp α) → Prop
  | _, [] => True
  | l, op :: ops =>
      (match op with
       | .popBack => l ≠ []
       | .popFront => l ≠ []
       | _ => True) ∧ NoUnderflow (specEndOp l op) ops

/-- The public mutators of the deque named by the structural-invariant claim.
`insert` covers the count-and-value overload (with `emplace`/single insert as
`count = 1`), `resize` the value-filled overload, and `eraseOne`/`erase` the
two erase overloads. -/
inductive PubOp (α : Type) where
  | pushBack (v : α)
  | pushFront (v : α)
  | popBack
  | popFront
  | insert (i count : Nat) (v : α)
  | emplace (i : Nat) (v : α)
  | erase (i j : Nat)
  | eraseOne (i : Nat)
  | resize (n : Nat) (v : α)
  | assign (n : Nat) (v : α)
  | clear
  | shrinkToFit
  | swapWith (other : Deque α)

/-- Apply a public mutator; positions are taken as offsets from `begin()`. -/
def applyPubOp (CS PAD : Nat) (d : Deque α) : PubOp α → Deque α
  | .pushBack v => push_back CS d v
  | .pushFront v => push_front CS d v
  | .popBack => pop_back CS d
  | .popFront => pop_front CS d
  | .insert i count v => (insert_count CS d (iterAdd CS d.beginIt (i : Int)) count v).1
  | .emplace i v => (insert_single CS d (iterAdd CS d.beginIt (i : Int)) v).1
  | .erase i j => (erase_range CS d (iterAdd CS d.beginIt (i : Int)) (iterAdd CS d.beginIt (j : Int))).1
  | .eraseOne i => (erase_single CS d (iterAdd CS d.beginIt (i : Int))).1
  | .resize n v => resize CS d n v
  | .assign n v => assign CS d n v
  | .clear => clear CS d
  | .shrinkToFit => shrink_to_fit CS PAD d
  | .swapWith other => (swapDeques d other).1

/-- Read the element slot at linear address `l` (chunk `l / CS`, offset
`l % CS`). -/
def readLin (CS : Nat) (m : MapL α) (l : Nat) : Option α := readPos m (l / CS) (l % CS)

/-- The window of `n` element slots from linear address `s` on. -/
def window (CS : Nat) (m : MapL α) (s n : Nat) : List (Option α) :=
  (List.range n).map fun k => readLin CS m (s + k)

/-- The structural invariants I1–I6 of the spec (§3) for a non-moved-from
deque, over the shallow embedding.  I4 (the cached `chunk_begin`/`chunk_end`)
is representational here: iterators store the in-chunk offset directly.
`data` is map index 1, `data - 1` is index 0, `data + num_chunks` is index
`numChunks + 1`. -/
structure Invariant (CS : Nat) (d : Deque α) : Prop where
  hlen : d.map.length = d.numChunks + 2
  hbc : 1 ≤ d.beginChunk
  hbe : d.beginChunk ≤ d.endChunk
  hec : d.endChunk ≤ d.numChunks + 1
  hnull : ∀ i, i < d.beginChunk ∨ d.endChunk ≤ i → slotAt d.map i = none
  halloc : ∀ i, d.beginChunk ≤ i → i < d.endChunk → (slotAt d.map i).isSome
  hchunklen : ∀ i ch, slotAt d.map i = some ch → ch.length = CS
  hbo : d.beginChunk ≤ d.beginIt.outer
  hbi : d.beginIt.inner < CS
  hei : d.endIt.inner < CS
  heo : d.endIt.outer < d.endChunk
  hle : iterLin CS d.beginIt ≤ iterLin CS d.endIt
  hlive : ∀ i ch j, slotAt d.map i = some ch → j < CS →
    ((slotAt ch j).isSome ↔
      (iterLin CS d.beginIt ≤ i * CS + j ∧ i * CS + j < iterLin CS d.endIt))

/-- The part of the invariant that concerns only the map and the linear live
range: it also holds in the mid-flight state inside `handle_chunk_end` (where
the end cursor transiently sits on the sentinel), so the growth engine is
specified against it.  `b` and `e` are the linear bounds of the live range. -/
structure MapInv (CS : Nat) (m : MapL α) (numChunks bc ec : Nat) (b e : Nat) : Prop where
  hlen : m.length = numChunks + 2
  hbc : 1 ≤ bc
  hbe : bc ≤ ec
  hec : ec ≤ numChunks + 1
  hnull : ∀ i, i < bc ∨ ec ≤ i → slotAt m i = none
  halloc : ∀ i, bc ≤ i → i < ec → (slotAt m i).isSome
  hchunklen : ∀ i ch, slotAt m i = some ch → ch.length = CS
  hble : b ≤ e
  hlive : ∀ i ch j, slotAt m i = some ch → j < CS →
    ((slotAt ch j).isSome ↔ (b ≤ i * CS + j ∧ i * CS + j < e))

/-- Decidable (bounded) check of `Invariant`, usable on concrete states. -/
def checkInv (CS : Nat) (d : Deque α) : Bool :=
  decide (d.map.length = d.numChunks + 2) &&
  decide (1 ≤ d.beginChunk) && decide (d.beginChunk ≤ d.endChunk) &&
  decide (d.endChunk ≤ d.numChunks + 1) &&
  ((List.range d.map.length).all fun i =>
    if d.beginChunk ≤ i ∧ i < d.endChunk then (slotAt d.map i).isSome
    else (slotAt d.map i).isNone) &&
  ((List.range d.map.length).all fun i =>
    (slotAt d.map i).isNone || decide (((slotAt d.map i).getD []).length = CS)) &&
  decide (d.beginChunk ≤ d.beginIt.outer) &&
  decide (d.beginIt.inner < CS) && decide (d.endIt.inner < CS) &&
  decide (d.endIt.outer < d.endChunk) &&
  decide (iterLin CS d.beginIt ≤ iterLin CS d.endIt) &&
  ((List.range d.map.length).all fun i =>
    (slotAt d.map i).isNone ||
    (List.range CS).all fun j =>
      decide ((slotAt ((slotAt d.map i).getD []) j).isSome ↔
        (iterLin CS d.beginIt ≤ i * CS + j ∧ i * CS + j < iterLin CS d.endIt)))

/-- A concrete three-element deque over `CS = 2` (live range `[4, 7)` in
linear slots), used as input for witnesses. -/
def sampleDeque : Deque Nat :=
  ⟨3, [none, none, some [some 10, some 11], some [some 12, none], none], 2, 4,
   ⟨2, 0⟩, ⟨3, 1⟩⟩

/-- A concrete valid deque over `CS = 1` whose two live chunks hug the right
edge of a sparse 12-slot map with no slack anywhere, so that the next
`push_back` enters `rearrange_end`'s chunk-allocation loop. -/
def growDeque : Deque Nat :=
  ⟨12, [none, none, none, none, none, none, none, none, none, none,
        some [some 1], some [some 2], some [none], none], 10, 13,
   ⟨10, 0⟩, ⟨12, 0⟩⟩

/-- A concrete valid deque over `CS = 2` with one spare chunk on each side of
the occupied range, so that `shrink_to_fit` frees chunks before it allocates
the new map. -/
def shrinkDeque : Deque Nat :=
  ⟨6, [none, some [none, none], some [some 1, some 2], some [some 3, some 4],
       some [none, none], some [none, none], none, none], 1, 6, ⟨2, 0⟩, ⟨4, 0⟩⟩

/-! ### Basic index arithmetic -/

theorem lin_div (CS i j : Nat) (h : j < CS) : (i * CS + j) / CS = i := by
  rw [Nat.add_comm, Nat.add_mul_div_right _ _ (by omega : 0 < CS), Nat.div_eq_of_lt h]
  simp

theorem lin_mod (CS i j : Nat) (h : j < CS) : (i * CS + j) % CS = j := by
  rw [Nat.add_comm, Nat.add_mul_mod_self_right, Nat.mod_eq_of_lt h]

theorem iterSub_eq (CS : Nat) (a b : DIter) :
    iterSub CS a b = (iterLin CS a : Int) - iterLin CS b := by
  unfold iterSub iterLin
  push_cast
  ring

theorem iterAdd_inner_lt (CS : Nat) (h0 : 0 < CS) (it : DIter) (n : Int) :
    (iterAdd CS it n).inner < CS := by
  have h1 : (0 : Int) < CS := by exact_mod_cast h0
  have h2 := Int.emod_lt_of_pos ((it.outer : Int) * CS + it.inner + n) h1
  have h3 := Int.emod_nonneg ((it.outer : Int) * CS + it.inner + n)
    (show (CS : Int) ≠ 0 by omega)
  show ((((it.outer : Int) * CS + it.inner + n)) % CS).toNat < CS
  omega

theorem iterLin_iterAdd (CS : Nat) (h0 : 0 < CS) (it : DIter) (n : Int)
    (h : 0 ≤ (iterLin CS it : Int) + n) :
    (iterLin CS (iterAdd CS it n) : Int) = (iterLin CS it : Int) + n := by
  have h1 : (0 : Int) < CS := by exact_mod_cast h0
  have hl0 : 0 ≤ (it.outer : Int) * CS + it.inner + n := by
    unfold iterLin at h
    push_cast at h
    nlinarith
  have h2 := Int.emod_nonneg ((it.outer : Int) * CS + it.inner + n)
    (show (CS : Int) ≠ 0 by omega)
  have h3 : 0 ≤ ((it.outer : Int) * CS + it.inner + n) / CS :=
    Int.ediv_nonneg hl0 (by omega)
  have h4 := Int.ediv_add_emod ((it.outer : Int) * CS + it.inner + n) (CS : Int)
  show ((((((it.outer : Int) * CS + it.inner + n)) / CS).toNat * CS +
      ((((it.outer : Int) * CS + it.inner + n)) % CS).toNat : Nat) : Int) =
      ((it.outer * CS + it.inner : Nat) : Int) + n
  push_cast
  rw [Int.toNat_of_nonneg h3, Int.toNat_of_nonneg h2]
  nlinarith [h4]

theorem iterLin_iterNext (CS : Nat) (it : DIter) :
    iterLin CS (iterNext CS it) = iterLin CS it + 1 := by
  unfold iterNext iterLin
  have hs : (it.outer + 1) * CS = it.outer * CS + CS := by ring
  split <;> simp only <;> omega

theorem iterNext_inner_lt (CS : Nat) (h0 : 0 < CS) (it : DIter) (h : it.inner < CS) :
    (iterNext CS it).inner < CS := by
  unfold iterNext
  split <;> simp only <;> omega

theorem iterLin_iterPred (CS : Nat) (it : DIter) (h0 : 0 < CS)
    (h : 1 ≤ it.outer ∨ 1 ≤ it.inner) :
    iterLin CS (iterPred CS it) = iterLin CS it - 1 := by
  unfold iterPred iterLin
  split
  · rename_i hi
    have ho : 1 ≤ it.outer := by rcases h with h | h <;> omega
    have hs : it.outer * CS = (it.outer - 1) * CS + CS := by
      have he : it.outer = (it.outer - 1) + 1 := by omega
      calc it.outer * CS = ((it.outer - 1) + 1) * CS := by rw [← he]
        _ = (it.outer - 1) * CS + CS := by ring
    simp only
    omega
  · simp only
    omega

theorem iterPred_inner_lt (CS : Nat) (h0 : 0 < CS) (it : DIter) (h : it.inner ≤ CS) :
    (iterPred CS it).inner < CS := by
  unfold iterPred
  split <;> simp only <;> omega

/-! ### Map slot surgery -/

theorem slotAt_set {β : Type} (m : List (Option β)) (i : Nat) (v : Option β) (j : Nat) :
    slotAt (m.set i v) j = if i = j ∧ i < m.length then v else slotAt m j := by
  unfold slotAt
  rw [List.getElem?_set]
  by_cases h : i = j
  · subst h
    by_cases hl : i < m.length
    · simp [hl]
    · have hn : m[i]? = none := List.getElem?_eq_none (by omega)
      simp [hl, hn]
  · simp [h]

theorem slotAt_eq_none_of_ge {β : Type} (m : List (Option β)) (i : Nat)
    (h : m.length ≤ i) : slotAt m i = none := by
  unfold slotAt
  rw [List.getElem?_eq_none h]
  rfl

theorem length_swapSlots (m : MapL α) (i j : Nat) :
    (swapSlots m i j).length = m.length := by
  unfold swapSlots
  simp

theorem slotAt_swapSlots (m : MapL α) (i j t : Nat) :
    slotAt (swapSlots m i j) t =
      if j = t ∧ j < m.length then slotAt m i
      else if i = t ∧ i < m.length then slotAt m j
      else slotAt m t := by
  simp only [swapSlots, slotAt_set, List.length_set]

theorem length_swapSeg (m : MapL α) (a b cnt : Nat) :
    (swapSeg m a b cnt).length = m.length := by
  induction cnt generalizing m a b with
  | zero => rfl
  | succ n ih =>
      unfold swapSeg
      rw [ih, length_swapSlots]

theorem slot_isSome_lt_length {β : Type} (m : List (Option β)) (i : Nat)
    (h : (slotAt m i).isSome) : i < m.length := by
  by_contra hc
  rw [slotAt_eq_none_of_ge m i (by omega)] at h
  simp at h

theorem slotAt_swapSeg (m : MapL α) (a b cnt : Nat)
    (hd : a + cnt ≤ b ∨ b + cnt ≤ a)
    (hal : a + cnt ≤ m.length) (hbl : b + cnt ≤ m.length) (t : Nat) :
    slotAt (swapSeg m a b cnt) t =
      if a ≤ t ∧ t < a + cnt then slotAt m (b + (t - a))
      else if b ≤ t ∧ t < b + cnt then slotAt m (a + (t - b))
      else slotAt m t := by
  induction cnt generalizing m a b with
  | zero =>
      simp only [swapSeg]
      rw [if_neg (by omega), if_neg (by omega)]
  | succ n ih =>
      simp only [swapSeg]
      rw [ih _ (a + 1) (b + 1) (by omega)
        (by rw [length_swapSlots]; omega) (by rw [length_swapSlots]; omega)]
      simp only [slotAt_swapSlots, length_swapSlots]
      split_ifs <;> first | rfl | omega | (exfalso; omega) | (congr 1; omega)

theorem slotAt_swapSeg_shift (m : MapL α) (a b cnt : Nat)
    (hba : b ≤ a) (hal : a + cnt ≤ m.length)
    (hmid : ∀ u, b ≤ u → u < a → slotAt m u = none) (t : Nat) :
    slotAt (swapSeg m a b cnt) t =
      if b ≤ t ∧ t < b + cnt then slotAt m (a + (t - b))
      else if b + cnt ≤ t ∧ t < a + cnt then none
      else slotAt m t := by
  induction cnt generalizing m a b with
  | zero =>
      simp only [swapSeg]
      rw [if_neg (by omega)]
      split_ifs with h
      · exact hmid t (by omega) (by omega)
      · rfl
  | succ n ih =>
      simp only [swapSeg]
      have hmid' : ∀ u, b + 1 ≤ u → u < a + 1 → slotAt (swapSlots m a b) u = none := by
        intro u hu1 hu2
        rw [slotAt_swapSlots]
        rcases Nat.eq_or_lt_of_le hu2 with he | hlt
        · -- u = a: that slot now holds the old b slot
          have hua : u = a := by omega
          by_cases hab : b = a
          · subst hab
            subst hua
            omega
          · rw [if_neg (by omega), if_pos (by constructor <;> omega)]
            exact hmid b (by omega) (by omega)
        · have hub : u ≠ b := by omega
          have hua : u ≠ a := by omega
          rw [if_neg (by simp [hub]; omega), if_neg (by simp [hua]; omega)]
          exact hmid u (by omega) (by omega)
      rw [ih (swapSlots m a b) (a + 1) (b + 1) (by omega)
        (by rw [length_swapSlots]; omega) hmid']
      simp only [slotAt_swapSlots]
      by_cases hab : b = a
      · subst hab
        split_ifs <;> first | rfl | omega | (exfalso; omega) | (congr 1; omega)
      · have hba' : b < a := by omega
        split_ifs <;>
          first
            | rfl | omega | (exfalso; omega) | (congr 1; omega)
            | (apply hmid <;> omega)
            | (rw [hmid b (by omega) (by omega)]; rfl)
            | (rw [hmid a (by omega) (by omega)])

theorem length_copySeg (src : MapL α) (s : Nat) (dst : MapL α) (d cnt : Nat) :
    (copySeg src s dst d cnt).length = dst.length := by
  induction cnt generalizing s dst d with
  | zero => rfl
  | succ n ih =>
      unfold copySeg
      rw [ih, List.length_set]

theorem slotAt_copySeg (src : MapL α) (s : Nat) (dst : MapL α) (d cnt : Nat)
    (hd : d + cnt ≤ dst.length) (t : Nat) :
    slotAt (copySeg src s dst d cnt) t =
      if d ≤ t ∧ t < d + cnt then slotAt src (s + (t - d)) else slotAt dst t := by
  induction cnt generalizing s dst d with
  | zero =>
      simp only [copySeg]
      rw [if_neg (by omega)]
  | succ n ih =>
      simp only [copySeg]
      rw [ih (s + 1) _ (d + 1) (by rw [List.length_set]; omega)]
      simp only [slotAt_set]
      split_ifs <;> first | rfl | omega | (exfalso; omega) | (congr 1; omega)

theorem length_copySegBack (src : MapL α) (last : Nat) (dst : MapL α) (dlast cnt : Nat) :
    (copySegBack src last dst dlast cnt).length = dst.length := by
  induction cnt generalizing last dst dlast with
  | zero => rfl
  | succ n ih =>
      unfold copySegBack
      rw [ih, List.length_set]

theorem slotAt_copySegBack (src : MapL α) (last : Nat) (dst : MapL α) (dlast cnt : Nat)
    (h1 : cnt ≤ last) (h2 : cnt ≤ dlast) (hdl : dlast ≤ dst.length) (t : Nat) :
    slotAt (copySegBack src last dst dlast cnt) t =
      if dlast - cnt ≤ t ∧ t < dlast then slotAt src (last - (dlast - t))
      else slotAt dst t := by
  induction cnt generalizing last dst dlast with
  | zero =>
      simp only [copySegBack]
      rw [if_neg (by omega)]
  | succ n ih =>
      simp only [copySegBack]
      rw [ih (last - 1) _ (dlast - 1) (by omega) (by omega)
        (by rw [List.length_set]; omega)]
      simp only [slotAt_set]
      split_ifs <;> first | rfl | omega | (exfalso; omega) | (congr 1; omega)

theorem length_allocRange (CS : Nat) (m : MapL α) (s cnt : Nat) :
    (allocRange CS m s cnt).length = m.length := by
  induction cnt generalizing m s with
  | zero => rfl
  | succ n ih =>
      unfold allocRange
      rw [ih, List.length_set]

theorem slotAt_allocRange (CS : Nat) (m : MapL α) (s cnt : Nat)
    (h : s + cnt ≤ m.length) (t : Nat) :
    slotAt (allocRange CS m s cnt) t =
      if s ≤ t ∧ t < s + cnt then some (freshChunk α CS) else slotAt m t := by
  induction cnt generalizing m s with
  | zero =>
      simp only [allocRange]
      rw [if_neg (by omega)]
  | succ n ih =>
      simp only [allocRange]
      rw [ih _ (s + 1) (by rw [List.length_set]; omega)]
      simp only [slotAt_set]
      split_ifs <;> first | rfl | omega | (exfalso; omega) | (congr 1; omega)

theorem length_deallocRange (m : MapL α) (s cnt : Nat) :
    (deallocRange m s cnt).length = m.length := by
  induction cnt generalizing m s with
  | zero => rfl
  | succ n ih =>
      unfold deallocRange
      rw [ih, List.length_set]

theorem slotAt_deallocRange (m : MapL α) (s cnt : Nat)
    (h : s + cnt ≤ m.length) (t : Nat) :
    slotAt (deallocRange m s cnt) t =
      if s ≤ t ∧ t < s + cnt then none else slotAt m t := by
  induction cnt generalizing m s with
  | zero =>
      simp only [deallocRange]
      rw [if_neg (by omega)]
  | succ n ih =>
      simp only [deallocRange]
      rw [ih _ (s + 1) (by rw [List.length_set]; omega)]
      simp only [slotAt_set]
      split_ifs <;> first | rfl | omega | (exfalso; omega) | (congr 1; omega)

/-! ### Element-level reads and writes -/

theorem length_writePos (m : MapL α) (o j : Nat) (v : Option α) :
    (writePos m o j v).length = m.length := by
  unfold writePos
  split
  · simp
  · rfl

theorem slot_isSome_writePos (m : MapL α) (o j : Nat) (v : Option α) (t : Nat) :
    (slotAt (writePos m o j v) t).isSome = (slotAt m t).isSome := by
  unfold writePos
  split
  · rename_i ch hch
    rw [slotAt_set]
    split_ifs with h
    · rw [← h.1, hch]
      rfl
    · rfl
  · rfl

theorem slotAt_writePos_ne (m : MapL α) (o j : Nat) (v : Option α) (t : Nat)
    (h : t ≠ o) : slotAt (writePos m o j v) t = slotAt m t := by
  unfold writePos
  split
  · rw [slotAt_set, if_neg (by omega)]
  · rfl

theorem slotAt_writePos_self (m : MapL α) (o j : Nat) (v : Option α) (ch : Chunk α)
    (h : slotAt m o = some ch) :
    slotAt (writePos m o j v) o = some (ch.set j v) := by
  have hlt := slot_isSome_lt_length m o (by rw [h]; rfl)
  unfold writePos
  rw [h]
  rw [slotAt_set, if_pos ⟨rfl, hlt⟩]

theorem readPos_some (m : MapL α) (o j : Nat) (ch : Chunk α)
    (h : slotAt m o = some ch) : readPos m o j = slotAt ch j := by
  unfold readPos
  rw [h]

theorem readPos_writePos (m : MapL α) (o j : Nat) (v : Option α) (ch : Chunk α)
    (hch : slotAt m o = some ch) (hj : j < ch.length) (q r : Nat) :
    readPos (writePos m o j v) q r =
      if o = q ∧ j = r then v else readPos m q r := by
  by_cases hq : q = o
  · subst hq
    rw [readPos_some (writePos m q j v) q r _ (slotAt_writePos_self m q j v ch hch)]
    rw [readPos_some m q r ch hch]
    rw [slotAt_set]
    split_ifs <;> first | rfl | omega | (exfalso; omega)
  · unfold readPos
    rw [slotAt_writePos_ne m o j v q hq, if_neg (by omega)]

theorem readPos_none_of_slot_none (m : MapL α) (q r : Nat)
    (h : slotAt m q = none) : readPos m q r = none := by
  unfold readPos
  rw [h]

theorem length_overwriteSeg (sc : Chunk α) (sj : Nat) (dc : Chunk α) (dj cnt : Nat) :
    (overwriteSeg sc sj dc dj cnt).length = dc.length := by
  induction cnt generalizing sj dc dj with
  | zero => rfl
  | succ n ih =>
      unfold overwriteSeg
      rw [ih, List.length_set]

theorem slotAt_overwriteSeg (sc : Chunk α) (sj : Nat) (dc : Chunk α) (dj cnt : Nat)
    (h : dj + cnt ≤ dc.length) (t : Nat) :
    slotAt (overwriteSeg sc sj dc dj cnt) t =
      if dj ≤ t ∧ t < dj + cnt then slotAt sc (sj + (t - dj)) else slotAt dc t := by
  induction cnt generalizing sj dc dj with
  | zero =>
      simp only [overwriteSeg]
      rw [if_neg (by omega)]
  | succ n ih =>
      simp only [overwriteSeg]
      rw [ih (sj + 1) _ (dj + 1) (by rw [List.length_set]; omega)]
      simp only [slotAt_set]
      split_ifs <;> first | rfl | omega | (exfalso; omega) | (congr 1; omega)

theorem length_memmoveChunk (m : MapL α) (sk sj dk dj cnt : Nat) :
    (memmoveChunk m sk sj dk dj cnt).length = m.length := by
  unfold memmoveChunk
  split
  · split <;> simp
  · rfl

theorem slot_isSome_memmoveChunk (m : MapL α) (sk sj dk dj cnt t : Nat) :
    (slotAt (memmoveChunk m sk sj dk dj cnt) t).isSome = (slotAt m t).isSome := by
  unfold memmoveChunk
  split
  · rename_i sc dc hs hd'
    split
    · rw [slotAt_set]
      split_ifs with h
      · rw [← h.1, hs]
        rfl
      · rfl
    · rw [slotAt_set]
      split_ifs with h
      · rw [← h.1, hd']
        rfl
      · rfl
  · rfl

theorem slotAt_memmoveChunk (m : MapL α) (sk sj dk dj cnt : Nat)
    (sc dc : Chunk α) (hs : slotAt m sk = some sc) (hd' : slotAt m dk = some dc)
    (hsd : sk = dk → dc = sc) (t : Nat) :
    slotAt (memmoveChunk m sk sj dk dj cnt) t =
      if t = dk then some (overwriteSeg sc sj dc dj cnt) else slotAt m t := by
  have hdl := slot_isSome_lt_length m dk (by rw [hd']; rfl)
  unfold memmoveChunk
  rw [hs, hd']
  simp only
  split
  · rename_i hk
    subst hk
    have hdc := hsd rfl
    subst hdc
    rw [slotAt_set]
    by_cases ht : t = sk
    · subst ht
      rw [if_pos ⟨rfl, hdl⟩, if_pos rfl]
    · rw [if_neg (by omega), if_neg ht]
  · rename_i hk
    rw [slotAt_set]
    by_cases ht : t = dk
    · subst ht
      rw [if_pos ⟨rfl, hdl⟩, if_pos rfl]
    · rw [if_neg (by omega), if_neg ht]

theorem readPos_memmoveChunk (m : MapL α) (sk sj dk dj cnt : Nat)
    (sc dc : Chunk α) (hs : slotAt m sk = some sc) (hd' : slotAt m dk = some dc)
    (hdj : dj + cnt ≤ dc.length) (hsd : sk = dk → dc = sc) (q r : Nat) :
    readPos (memmoveChunk m sk sj dk dj cnt) q r =
      if q = dk ∧ dj ≤ r ∧ r < dj + cnt then readPos m sk (sj + (r - dj))
      else readPos m q r := by
  have hchar := slotAt_memmoveChunk m sk sj dk dj cnt sc dc hs hd' hsd
  by_cases hq : q = dk
  · subst hq
    rw [readPos_some _ q r _ (by rw [hchar q, if_pos rfl])]
    rw [readPos_some m q r dc hd']
    rw [readPos_some m sk _ sc hs]
    rw [slotAt_overwriteSeg _ _ _ _ _ hdj]
    split_ifs <;> first | rfl | omega | (exfalso; omega) | (congr 1; omega)
  · unfold readPos
    rw [hchar q, if_neg hq, if_neg (by omega)]

/-! ### Reads through linear addresses -/

theorem readLin_iter (CS : Nat) (m : MapL α) (it : DIter) (h : it.inner < CS) :
    readLin CS m (iterLin CS it) = readPos m it.outer it.inner := by
  unfold readLin iterLin
  rw [lin_div CS it.outer it.inner h, lin_mod CS it.outer it.inner h]

theorem window_congr (CS : Nat) (m m' : MapL α) (s s' n : Nat)
    (h : ∀ k, k < n → readLin CS m' (s' + k) = readLin CS m (s + k)) :
    window CS m' s' n = window CS m s n := by
  unfold window
  apply List.map_congr_left
  intro k hk
  rw [List.mem_range] at hk
  exact h k hk

theorem toList_eq_window (CS : Nat) (d : Deque α) :
    toList CS d = window CS d.map (iterLin CS d.beginIt) (size CS d) := by
  rfl

/-! ### The decidable checker implies the invariant -/

theorem invariant_of_checkInv (CS : Nat) (d : Deque α) (h : checkInv CS d = true) :
    Invariant CS d := by
  unfold checkInv at h
  simp only [Bool.and_eq_true, decide_eq_true_eq, List.all_eq_true, List.mem_range,
    Bool.or_eq_true] at h
  obtain ⟨⟨⟨⟨⟨⟨⟨⟨⟨⟨⟨h1, h2⟩, h3⟩, h4⟩, h5⟩, h6⟩, h7⟩, h8⟩, h9⟩, h10⟩, h11⟩, h12⟩ := h
  refine ⟨h1, h2, h3, h4, ?_, ?_, ?_, h7, h8, h9, h10, h11, ?_⟩
  · intro i hi
    by_cases hl : i < d.map.length
    · have := h5 i hl
      rw [if_neg (by omega)] at this
      exact Option.eq_none_of_isNone this
    · exact slotAt_eq_none_of_ge d.map i (by omega)
  · intro i hbi hie
    have hl : i < d.map.length := by omega
    have := h5 i hl
    rw [if_pos (by omega)] at this
    exact this
  · intro i ch hch
    have hl : i < d.map.length := slot_isSome_lt_length d.map i (by rw [hch]; rfl)
    rcases h6 i hl with hn | he
    · rw [hch] at hn
      simp at hn
    · rw [hch] at he
      exact he
  · intro i ch j hch hj
    have hl : i < d.map.length := slot_isSome_lt_length d.map i (by rw [hch]; rfl)
    rcases h12 i hl with hn | ha
    · rw [hch] at hn
      simp at hn
    · have := ha j hj
      rw [hch] at this
      exact this

/-! ### Lengths of the growth-engine results -/

theorem length_swapSegRev (m : MapL α) (a c cnt : Nat) :
    (swapSegRev m a c cnt).length = m.length := by
  induction cnt generalizing m a c with
  | zero => rfl
  | succ n ih =>
      unfold swapSegRev
      rw [ih, length_swapSlots]

theorem length_map_center (d : Deque α) (l r : Int) :
    (center d l r).map.length = d.map.length := by
  simp only [center]
  split <;> simp only <;> rw [length_swapSeg]

theorem length_map_rearrange_end (CS : Nat) (d : Deque α) (k bic eic : Nat) :
    (rearrange_end CS d k bic eic).map.length = d.map.length := by
  simp only [rearrange_end]
  split
  · split <;> split <;>
      simp only [length_map_center, length_allocRange, length_swapSeg]
  · simp only [length_map_center, length_swapSeg]

theorem length_map_reallocate_end (CS : Nat) (d : Deque α) (k bic eic : Nat) :
    (reallocate_end CS d k bic eic).map.length = 3 * (eic - bic + k) + 2 := by
  simp only [reallocate_end]
  split
  · simp only [length_copySegBack, length_copySeg, List.length_replicate]
    ring
  · simp only [length_allocRange, length_copySeg, List.length_replicate]
    ring

/-! ### fill_helper sizing -/

theorem fillChunks_snd (CS : Nat) (h0 : 0 < CS) (f : Nat → Option α) :
    ∀ r idx (m : MapL α) ec, (fillChunks CS f r idx m ec).2 = ec + (r + CS - 1) / CS := by
  intro r
  induction r using Nat.strong_induction_on with
  | _ r ih =>
      match r with
      | 0 =>
          intro idx m ec
          simp only [fillChunks]
          rw [Nat.div_eq_of_lt (by omega)]
          omega
      | r + 1 =>
          intro idx m ec
          rw [fillChunks]
          rw [dif_neg (by omega)]
          rw [ih (r + 1 - min CS (r + 1)) (by omega)]
          by_cases hc : CS ≤ r + 1
          · have hmin : min CS (r + 1) = CS := by omega
            rw [hmin]
            have h1 : r + 1 - CS + CS - 1 = r := by omega
            have h2 : r + 1 + CS - 1 = r + CS := by omega
            rw [h1, h2, Nat.add_div_right _ h0]
            omega
          · have hmin : min CS (r + 1) = r + 1 := by omega
            rw [hmin]
            have h1 : r + 1 - (r + 1) + CS - 1 = CS - 1 := by omega
            rw [h1, Nat.div_eq_of_lt (by omega)]
            have h2 : r + 1 + CS - 1 = r + CS := by omega
            rw [h2, Nat.add_div_right _ h0]
            rw [Nat.div_eq_of_lt (by omega)]

theorem fill_helper_endChunk (CS PAD n : Nat) (h0 : 0 < CS) (f : Nat → Option α) :
    (fill_helper CS PAD n f : Deque α).endChunk = 1 + PAD / 2 + (n / CS + 1) := by
  show (fillChunks CS f (n + 1) 0 _ (1 + PAD / 2)).2 = _
  rw [fillChunks_snd CS h0 f]
  have h1 : n + 1 + CS - 1 = n + CS := by omega
  rw [h1]
  rw [Nat.add_div_right _ h0]

/-! ### Windows -/

theorem window_zero (CS : Nat) (m : MapL α) (s : Nat) : window CS m s 0 = [] := rfl

theorem window_succ (CS : Nat) (m : MapL α) (s n : Nat) :
    window CS m s (n + 1) = window CS m s n ++ [readLin CS m (s + n)] := by
  unfold window
  rw [List.range_succ, List.map_append]
  rfl

theorem window_dropLast (CS : Nat) (m : MapL α) (s n : Nat) :
    (window CS m s (n + 1)).dropLast = window CS m s n := by
  rw [window_succ]
  exact List.dropLast_concat ..

theorem window_tail (CS : Nat) (m : MapL α) (s n : Nat) :
    (window CS m s (n + 1)).tail = window CS m (s + 1) n := by
  unfold window
  rw [List.range_succ_eq_map]
  simp only [List.map_cons, List.tail_cons, List.map_map]
  apply List.map_congr_left
  intro k _
  simp only [Function.comp_apply]
  congr 1
  omega

theorem window_one (CS : Nat) (m : MapL α) (s : Nat) :
    window CS m s 1 = [readLin CS m s] := by
  rw [window_succ, window_zero]
  simp

theorem window_append (CS : Nat) (m : MapL α) (s n1 n2 : Nat) :
    window CS m s (n1 + n2) = window CS m s n1 ++ window CS m (s + n1) n2 := by
  induction n2 with
  | zero => simp [window_zero]
  | succ k ih =>
      have h1 : n1 + (k + 1) = (n1 + k) + 1 := by omega
      rw [h1, window_succ, window_succ, ih, List.append_assoc]
      have h2 : s + (n1 + k) = s + n1 + k := by omega
      rw [h2]

/-! ### Helpers for chunk/offset reasoning -/

theorem outer_ge_of_lin_ge (CS : Nat) (c o j : Nat) (hj : j < CS)
    (h : c * CS ≤ o * CS + j) : c ≤ o := by
  by_contra hc
  have h1 : o + 1 ≤ c := by omega
  have h2 : (o + 1) * CS ≤ c * CS := Nat.mul_le_mul_right CS h1
  have h3 : (o + 1) * CS = o * CS + CS := by ring
  omega

theorem lin_unique (CS o j o' j' : Nat) (hj : j < CS) (hj' : j' < CS)
    (h : o * CS + j = o' * CS + j') : o = o' ∧ j = j' := by
  have h1 : o = (o * CS + j) / CS := (lin_div CS o j hj).symm
  have h2 : o' = (o' * CS + j') / CS := (lin_div CS o' j' hj').symm
  have h3 : j = (o * CS + j) % CS := (lin_mod CS o j hj).symm
  have h4 : j' = (o' * CS + j') % CS := (lin_mod CS o' j' hj').symm
  constructor
  · rw [h1, h2, h]
  · rw [h3, h4, h]

theorem lin_decomp (CS : Nat) (h0 : 0 < CS) (l : Nat) :
    (l / CS) * CS + l % CS = l := by
  rw [Nat.mul_comm]
  exact Nat.div_add_mod l CS

theorem lin_mod_lt (CS : Nat) (h0 : 0 < CS) (l : Nat) : l % CS < CS :=
  Nat.mod_lt l h0

/-! ### pop_back / pop_front -/

theorem pop_back_spec (CS : Nat) (d : Deque α) (h0 : 0 < CS) (hinv : Invariant CS d)
    (hne : 0 < size CS d) :
    (pop_back CS d).numChunks = d.numChunks ∧
    (pop_back CS d).beginChunk = d.beginChunk ∧
    (pop_back CS d).endChunk = d.endChunk ∧
    (∀ i, (slotAt (pop_back CS d).map i).isSome = (slotAt d.map i).isSome) ∧
    size CS (pop_back CS d) = size CS d - 1 ∧
    toList CS (pop_back CS d) = (toList CS d).dropLast ∧
    Invariant CS (pop_back CS d) := by
  obtain ⟨hlen, hbc, hbe, hec, hnull, halloc, hchunklen, hbo, hbi, hei, heo, hle, hlive⟩ := hinv
  set b := iterLin CS d.beginIt with hbdef
  set eL := iterLin CS d.endIt with hedef
  have hblow : CS ≤ b := by
    have : d.beginChunk * CS ≤ d.beginIt.outer * CS :=
      Nat.mul_le_mul_right CS hbo
    have h1 : 1 * CS ≤ d.beginChunk * CS := Nat.mul_le_mul_right CS hbc
    unfold iterLin at hbdef
    omega
  have hlt : b < eL := by
    unfold size at hne
    rw [iterSub_eq] at hne
    omega
  have he1 : 1 ≤ d.endIt.outer ∨ 1 ≤ d.endIt.inner := by
    by_contra hc
    push_neg at hc
    have h1 : d.endIt.outer = 0 := by omega
    have h2 : d.endIt.inner = 0 := by omega
    unfold iterLin at hedef
    rw [h1, h2] at hedef
    simp at hedef
    omega
  set e := iterPred CS d.endIt with hepdef
  have hlinE : iterLin CS e = eL - 1 := by
    rw [hepdef, iterLin_iterPred CS d.endIt h0 he1]
  have heilt : e.inner < CS := iterPred_inner_lt CS h0 d.endIt (by omega)
  have heout : e.outer ≤ d.endIt.outer := by
    rw [hepdef]
    unfold iterPred
    split <;> simp <;> omega
  have heoutge : d.beginChunk ≤ e.outer := by
    apply outer_ge_of_lin_ge CS d.beginChunk e.outer e.inner heilt
    have h1 : d.beginChunk * CS ≤ b := by
      have h2 : d.beginChunk * CS ≤ d.beginIt.outer * CS := Nat.mul_le_mul_right CS hbo
      unfold iterLin at hbdef
      omega
    have h2 : iterLin CS e = e.outer * CS + e.inner := rfl
    omega
  have hesome : (slotAt d.map e.outer).isSome := halloc e.outer heoutge (by omega)
  obtain ⟨ch, hch⟩ := Option.isSome_iff_exists.mp hesome
  have hchlen : ch.length = CS := hchunklen e.outer ch hch
  have hmapchar : ∀ q r, readPos (pop_back CS d).map q r =
      if e.outer = q ∧ e.inner = r then none else readPos d.map q r := by
    intro q r
    exact readPos_writePos d.map e.outer e.inner none ch hch (by omega) q r
  have hsize : size CS (pop_back CS d) = size CS d - 1 := by
    unfold size pop_back
    simp only
    rw [iterSub_eq, iterSub_eq, ← hepdef, hlinE]
    rw [← hbdef, ← hedef]
    omega
  refine ⟨rfl, rfl, rfl, ?_, hsize, ?_, ?_⟩
  · intro i
    exact slot_isSome_writePos d.map e.outer e.inner none i
  · rw [toList_eq_window, toList_eq_window, hsize]
    have hb' : iterLin CS (pop_back CS d).beginIt = b := rfl
    rw [hb', ← hbdef]
    have hsz : size CS d = (size CS d - 1) + 1 := by omega
    rw [hsz, window_dropLast]
    apply window_congr
    intro k hk
    unfold readLin
    show readPos (pop_back CS d).map ((b + k) / CS) ((b + k) % CS) = _
    rw [hmapchar]
    rw [if_neg ?_]
    intro hcond
    have hdec := lin_decomp CS h0 (b + k)
    rw [← hcond.1, ← hcond.2] at hdec
    have : iterLin CS e = e.outer * CS + e.inner := rfl
    have hszlin : size CS d = eL - b := by
      unfold size
      rw [iterSub_eq, ← hbdef, ← hedef]
      omega
    omega
  · show Invariant CS (Deque.mk d.numChunks (writePos d.map e.outer e.inner none)
      d.beginChunk d.endChunk d.beginIt e)
    refine ⟨?_, hbc, hbe, hec, ?_, ?_, ?_, hbo, hbi, ?_, ?_, ?_, ?_⟩
    · show (writePos d.map e.outer e.inner none).length = _
      rw [length_writePos]
      exact hlen
    · intro i hi
      simp only at hi
      have h1 := hnull i hi
      have h2 := slot_isSome_writePos d.map e.outer e.inner none i
      rw [h1] at h2
      simp only [Option.isSome_none] at h2
      show slotAt (writePos d.map e.outer e.inner none) i = none
      exact Option.not_isSome_iff_eq_none.mp (by rw [h2]; simp)
    · intro i h1 h2
      simp only at h1 h2
      show (slotAt (writePos d.map e.outer e.inner none) i).isSome = true
      rw [slot_isSome_writePos]
      exact halloc i h1 h2
    · intro i ch' hch'
      simp only at hch'
      by_cases hq : i = e.outer
      · subst hq
        rw [slotAt_writePos_self d.map e.outer e.inner none ch hch] at hch'
        have : ch' = ch.set e.inner none := by
          injection hch'.symm
        rw [this, List.length_set]
        exact hchlen
      · rw [slotAt_writePos_ne d.map e.outer e.inner none i (by omega)] at hch'
        exact hchunklen i ch' hch'
    · show e.inner < CS
      exact heilt
    · show e.outer < d.endChunk
      omega
    · show iterLin CS d.beginIt ≤ iterLin CS e
      rw [hlinE, ← hbdef]
      omega
    · intro i ch' j hch' hj
      have henl : iterLin CS e = e.outer * CS + e.inner := rfl
      have hendec : eL - 1 = e.outer * CS + e.inner := by omega
      by_cases hq : i = e.outer
      · subst hq
        rw [slotAt_writePos_self d.map e.outer e.inner none ch hch] at hch'
        have hcc : ch' = ch.set e.inner none := by injection hch'.symm
        rw [hcc, slotAt_set]
        by_cases hji : e.inner = j
        · subst hji
          rw [if_pos ⟨rfl, by omega⟩]
          simp only [Option.isSome_none, Bool.false_eq_true, false_iff]
          rw [hlinE]
          omega
        · rw [if_neg (by omega)]
          have h1 := hlive e.outer ch j hch hj
          rw [hlinE]
          constructor
          · intro hs
            have h2 := h1.mp hs
            refine ⟨h2.1, ?_⟩
            have hne2 : e.outer * CS + j ≠ eL - 1 := by
              intro hc
              rw [hendec] at hc
              omega
            omega
          · intro h2
            exact h1.mpr ⟨h2.1, by omega⟩
      · rw [slotAt_writePos_ne d.map e.outer e.inner none i (by omega)] at hch'
        have h1 := hlive i ch' j hch' hj
        rw [hlinE]
        constructor
        · intro hs
          have h2 := h1.mp hs
          refine ⟨h2.1, ?_⟩
          have : i * CS + j ≠ eL - 1 := by
            intro hc
            have hendec : eL - 1 = e.outer * CS + e.inner := by
              have : iterLin CS e = e.outer * CS + e.inner := rfl
              omega
            rw [hendec] at hc
            have := lin_unique CS i j e.outer e.inner hj heilt hc
            omega
          omega
        · intro h2
          exact h1.mpr ⟨h2.1, by omega⟩

theorem pop_front_spec (CS : Nat) (d : Deque α) (h0 : 0 < CS) (hinv : Invariant CS d)
    (hne : 0 < size CS d) :
    (pop_front CS d).numChunks = d.numChunks ∧
    (pop_front CS d).beginChunk = d.beginChunk ∧
    (pop_front CS d).endChunk = d.endChunk ∧
    (∀ i, (slotAt (pop_front CS d).map i).isSome = (slotAt d.map i).isSome) ∧
    size CS (pop_front CS d) = size CS d - 1 ∧
    toList CS (pop_front CS d) = (toList CS d).tail ∧
    Invariant CS (pop_front CS d) := by
  obtain ⟨hlen, hbc, hbe, hec, hnull, halloc, hchunklen, hbo, hbi, hei, heo, hle, hlive⟩ := hinv
  set b := iterLin CS d.beginIt with hbdef
  set eL := iterLin CS d.endIt with hedef
  have hlt : b < eL := by
    unfold size at hne
    rw [iterSub_eq] at hne
    omega
  have hboutlt : d.beginIt.outer < d.endChunk := by
    have h1 : iterLin CS d.endIt = d.endIt.outer * CS + d.endIt.inner := rfl
    have h2 : iterLin CS d.beginIt = d.beginIt.outer * CS + d.beginIt.inner := rfl
    have h3 : d.beginIt.outer ≤ d.endIt.outer := by
      apply outer_ge_of_lin_ge CS d.beginIt.outer d.endIt.outer d.endIt.inner hei
      omega
    omega
  have hbsome : (slotAt d.map d.beginIt.outer).isSome := halloc d.beginIt.outer hbo hboutlt
  obtain ⟨ch, hch⟩ := Option.isSome_iff_exists.mp hbsome
  have hchlen : ch.length = CS := hchunklen d.beginIt.outer ch hch
  set b' := iterNext CS d.beginIt with hbp
  have hlinB : iterLin CS b' = b + 1 := by
    rw [hbp, iterLin_iterNext]
  have hbilt : b'.inner < CS := iterNext_inner_lt CS h0 d.beginIt hbi
  have hbout' : d.beginIt.outer ≤ b'.outer := by
    rw [hbp]
    unfold iterNext
    split <;> simp <;> omega
  have hmapchar : ∀ q r, readPos (pop_front CS d).map q r =
      if d.beginIt.outer = q ∧ d.beginIt.inner = r then none else readPos d.map q r := by
    intro q r
    exact readPos_writePos d.map d.beginIt.outer d.beginIt.inner none ch hch (by omega) q r
  have hbdec : b = d.beginIt.outer * CS + d.beginIt.inner := rfl
  have hsize : size CS (pop_front CS d) = size CS d - 1 := by
    unfold size pop_front
    simp only
    rw [iterSub_eq, iterSub_eq, ← hbp, hlinB, ← hbdef, ← hedef]
    omega
  refine ⟨rfl, rfl, rfl, ?_, hsize, ?_, ?_⟩
  · intro i
    exact slot_isSome_writePos d.map d.beginIt.outer d.beginIt.inner none i
  · rw [toList_eq_window, toList_eq_window, hsize]
    have hb2 : iterLin CS (pop_front CS d).beginIt = b + 1 := hlinB
    rw [hb2, ← hbdef]
    have hsz : size CS d = (size CS d - 1) + 1 := by omega
    rw [hsz, window_tail]
    apply window_congr
    intro k hk
    unfold readLin
    show readPos (pop_front CS d).map ((b + 1 + k) / CS) ((b + 1 + k) % CS) = _
    rw [hmapchar]
    rw [if_neg ?_]
    intro hcond
    have hdec := lin_decomp CS h0 (b + 1 + k)
    rw [← hcond.1, ← hcond.2] at hdec
    omega
  · show Invariant CS (Deque.mk d.numChunks
      (writePos d.map d.beginIt.outer d.beginIt.inner none)
      d.beginChunk d.endChunk b' d.endIt)
    have hbout2 : d.beginChunk ≤ b'.outer := by omega
    refine ⟨?_, hbc, hbe, hec, ?_, ?_, ?_, hbout2, hbilt, hei, heo, ?_, ?_⟩
    · show (writePos d.map d.beginIt.outer d.beginIt.inner none).length = _
      rw [length_writePos]
      exact hlen
    · intro i hi
      simp only at hi
      have h1 := hnull i hi
      have h2 := slot_isSome_writePos d.map d.beginIt.outer d.beginIt.inner none i
      rw [h1] at h2
      simp only [Option.isSome_none] at h2
      show slotAt (writePos d.map d.beginIt.outer d.beginIt.inner none) i = none
      exact Option.not_isSome_iff_eq_none.mp (by rw [h2]; simp)
    · intro i h1 h2
      simp only at h1 h2
      show (slotAt (writePos d.map d.beginIt.outer d.beginIt.inner none) i).isSome = true
      rw [slot_isSome_writePos]
      exact halloc i h1 h2
    · intro i ch' hch'
      simp only at hch'
      by_cases hq : i = d.beginIt.outer
      · subst hq
        rw [slotAt_writePos_self d.map d.beginIt.outer d.beginIt.inner none ch hch] at hch'
        have hcc : ch' = ch.set d.beginIt.inner none := by injection hch'.symm
        rw [hcc, List.length_set]
        exact hchlen
      · rw [slotAt_writePos_ne d.map d.beginIt.outer d.beginIt.inner none i (by omega)] at hch'
        exact hchunklen i ch' hch'
    · show iterLin CS b' ≤ iterLin CS d.endIt
      rw [hlinB, ← hedef]
      omega
    · intro i ch' j hch' hj
      simp only at hch'
      have hgoal : iterLin CS b' = b + 1 := hlinB
      by_cases hq : i = d.beginIt.outer
      · subst hq
        rw [slotAt_writePos_self d.map d.beginIt.outer d.beginIt.inner none ch hch] at hch'
        have hcc : ch' = ch.set d.beginIt.inner none := by injection hch'.symm
        rw [hcc, slotAt_set]
        by_cases hji : d.beginIt.inner = j
        · subst hji
          rw [if_pos ⟨rfl, by omega⟩]
          simp only [Option.isSome_none, Bool.false_eq_true, false_iff]
          rw [hgoal]
          omega
        · rw [if_neg (by omega)]
          have h1 := hlive d.beginIt.outer ch j hch hj
          rw [hgoal]
          constructor
          · intro hs
            have h2 := h1.mp hs
            refine ⟨?_, h2.2⟩
            have hne2 : d.beginIt.outer * CS + j ≠ b := by
              intro hc
              rw [hbdec] at hc
              omega
            omega
          · intro h2
            exact h1.mpr ⟨by omega, h2.2⟩
      · rw [slotAt_writePos_ne d.map d.beginIt.outer d.beginIt.inner none i (by omega)] at hch'
        have h1 := hlive i ch' j hch' hj
        rw [hgoal]
        constructor
        · intro hs
          have h2 := h1.mp hs
          refine ⟨?_, h2.2⟩
          have hne2 : i * CS + j ≠ b := by
            intro hc
            rw [hbdec] at hc
            have := lin_unique CS i j d.beginIt.outer d.beginIt.inner hj hbi hc
            omega
          omega
        · intro h2
          exact h1.mpr ⟨by omega, h2.2⟩

/-! ### Claim C5: make_room_end branching -/

/-- C5: `make_room_end(k)` computes `active_chunks = (end_iterator_chunk -
begin_iterator_chunk) + k`, where `end_iterator_chunk` is
`end_iterator.outer_pointer` plus one exactly when `end_iterator.inner_pointer`
is non-null; it rearranges in place (keeping the same outer array, hence the
same map length) if and only if `active_chunks ≤ num_chunks / 3`, and
otherwise reallocates the map to a new outer array of exactly
`3 * active_chunks + 2` slots including the sentinels. -/
theorem C5_make_room_end_branch (CS : Nat) (d : Deque α) (k : Nat) :
    (make_room_end CS d k =
      if (if (slotAt d.map d.endIt.outer).isSome then d.endIt.outer + 1
          else d.endIt.outer) - d.beginIt.outer + k ≤ d.numChunks / 3
      then rearrange_end CS d k d.beginIt.outer
        (if (slotAt d.map d.endIt.outer).isSome then d.endIt.outer + 1 else d.endIt.outer)
      else reallocate_end CS d k d.beginIt.outer
        (if (slotAt d.map d.endIt.outer).isSome then d.endIt.outer + 1 else d.endIt.outer)) ∧
    (∀ bic eic, (rearrange_end CS d k bic eic).map.length = d.map.length) ∧
    (∀ bic eic, (reallocate_end CS d k bic eic).map.length = 3 * (eic - bic + k) + 2) :=
  ⟨rfl, fun bic eic => length_map_rearrange_end CS d k bic eic,
   fun bic eic => length_map_reallocate_end CS d k bic eic⟩

/-! ### Claim C4: constructor pre-sizing (corrected) -/

/-- C4 counterexample: for `CHUNK_SIZE = 8`, `CHUNK_PADDING = 2` and requested
count `n = 1`, the constructor allocates `2 + (1+8)/8 = 3` chunk slots, not the
claimed `CHUNK_PADDING + ⌈(n + CHUNK_SIZE) / CHUNK_SIZE⌉ = 2 + 2 = 4`. -/
theorem C4_counterexample :
    (fill_helper 8 2 1 (fun _ => some (0 : Nat))).numChunks ≠ spec_num_chunks 8 2 1 := by
  decide

/-- C4 (amended): the constructors pre-size the outer map to exactly
`CHUNK_PADDING + ⌊(n + CHUNK_SIZE) / CHUNK_SIZE⌋` chunk slots (floor division,
as the C++ integer division computes; equivalently
`CHUNK_PADDING + ⌈(n+1)/CHUNK_SIZE⌉`), and position the allocated sub-range to
start `CHUNK_PADDING/2` slots after `data`, leaving `CHUNK_PADDING/2` spare
slots on each side. -/
theorem C4_fill_helper_presize (CS PAD n : Nat) (f : Nat → Option α) (h0 : 0 < CS)
    (hpad : PAD % 2 = 0) :
    (fill_helper CS PAD n f).numChunks = PAD + (n + CS) / CS ∧
    (fill_helper CS PAD n f).beginChunk = 1 + PAD / 2 ∧
    (fill_helper CS PAD n f).beginChunk - 1 = PAD / 2 ∧
    (fill_helper CS PAD n f).numChunks + 1 - (fill_helper CS PAD n f).endChunk = PAD / 2 := by
  have he := fill_helper_endChunk CS PAD n h0 f
  have hnc : (fill_helper CS PAD n f).numChunks = PAD + (n + CS) / CS := rfl
  have hbcx : (fill_helper CS PAD n f).beginChunk = 1 + PAD / 2 := rfl
  have hd : (n + CS) / CS = n / CS + 1 := Nat.add_div_right n h0
  refine ⟨hnc, hbcx, by omega, by omega⟩

/-- Witness for C4's amended statement at `CS = 8`, `PAD = 2`, `n = 1`. -/
theorem C4_witness :
    (fill_helper 8 2 1 (fun _ => some (0 : Nat))).numChunks = 2 + (1 + 8) / 8 ∧
    (fill_helper 8 2 1 (fun _ => some (0 : Nat))).beginChunk = 1 + 2 / 2 ∧
    (fill_helper 8 2 1 (fun _ => some (0 : Nat))).beginChunk - 1 = 2 / 2 ∧
    (fill_helper 8 2 1 (fun _ => some (0 : Nat))).numChunks + 1 -
      (fill_helper 8 2 1 (fun _ => some (0 : Nat))).endChunk = 2 / 2 :=
  C4_fill_helper_presize 8 2 1 (fun _ => some (0 : Nat)) (by decide) (by decide)

/-! ### Claim C6: pops never release chunks -/

/-- C6: for every non-empty deque, `pop_back` and `pop_front` destroy exactly
one boundary element (the contents become `dropLast`, resp. `tail`) and
retreat/advance the corresponding boundary cursor, and they never release
chunks: `num_chunks`, `begin_chunk`, `end_chunk` and the allocation status of
every map slot (hence also `data`, which the operations never touch) are
unchanged. -/
theorem C6_pop_preserves_chunks (CS : Nat) (d : Deque α) (h0 : 0 < CS)
    (hinv : Invariant CS d) (hne : 0 < size CS d) :
    ((pop_back CS d).numChunks = d.numChunks ∧
     (pop_back CS d).beginChunk = d.beginChunk ∧
     (pop_back CS d).endChunk = d.endChunk ∧
     (∀ i, (slotAt (pop_back CS d).map i).isSome = (slotAt d.map i).isSome) ∧
     (pop_back CS d).beginIt = d.beginIt ∧
     (pop_back CS d).endIt = iterPred CS d.endIt ∧
     toList CS (pop_back CS d) = (toList CS d).dropLast) ∧
    ((pop_front CS d).numChunks = d.numChunks ∧
     (pop_front CS d).beginChunk = d.beginChunk ∧
     (pop_front CS d).endChunk = d.endChunk ∧
     (∀ i, (slotAt (pop_front CS d).map i).isSome = (slotAt d.map i).isSome) ∧
     (pop_front CS d).beginIt = iterNext CS d.beginIt ∧
     (pop_front CS d).endIt = d.endIt ∧
     toList CS (pop_front CS d) = (toList CS d).tail) := by
  obtain ⟨h1, h2, h3, h4, _, h6, _⟩ := pop_back_spec CS d h0 hinv hne
  obtain ⟨g1, g2, g3, g4, _, g6, _⟩ := pop_front_spec CS d h0 hinv hne
  exact ⟨⟨h1, h2, h3, h4, rfl, rfl, h6⟩, ⟨g1, g2, g3, g4, rfl, rfl, g6⟩⟩

/-- Witness for C6 at a concrete three-element deque with `CS = 2`. -/
theorem C6_witness :
    toList 2 (pop_back 2 sampleDeque) = (toList 2 sampleDeque).dropLast ∧
    toList 2 (pop_front 2 sampleDeque) = (toList 2 sampleDeque).tail := by
  have h := C6_pop_preserves_chunks 2 sampleDeque (by decide)
    (invariant_of_checkInv 2 sampleDeque (by decide)) (by decide)
  exact ⟨h.1.2.2.2.2.2.2, h.2.2.2.2.2.2.2⟩

/-! ### Claim C10: copy self-assignment -/

/-- C10: copy assignment guards on `this == &other` and returns immediately,
so self-assignment (`d = d`, the `aliased` flag true) leaves the deque — its
contents, size and every internal field — unchanged. -/
theorem C10_self_assignment (CS : Nat) (d : Deque α) :
    assignOp CS d d true = d ∧
    toList CS (assignOp CS d d true) = toList CS d ∧
    size CS (assignOp CS d d true) = size CS d :=
  ⟨rfl, rfl, rfl⟩

/-! ### Workhorse lemmas for map relocation -/

theorem lin_lt_of_outer_lt (CS t u j : Nat) (hj : j < CS) (h : t < u) :
    t * CS + j < u * CS := by
  have h1 : (t + 1) * CS ≤ u * CS := Nat.mul_le_mul_right CS (by omega)
  have h2 : (t + 1) * CS = t * CS + CS := by ring
  omega

theorem lin_ge_of_outer_ge (CS t u j : Nat) (h : u ≤ t) : u * CS ≤ t * CS + j := by
  have h1 : u * CS ≤ t * CS := Nat.mul_le_mul_right CS h
  omega

theorem chunk_all_none_right (CS : Nat) (m : MapL α) (n bc ec b e : Nat)
    (hmi : MapInv CS m n bc ec b e) (i : Nat) (ch : Chunk α)
    (hch : slotAt m i = some ch) (hge : e ≤ i * CS) (j : Nat) :
    slotAt ch j = none := by
  by_cases hj : j < CS
  · have h1 := hmi.hlive i ch j hch hj
    by_contra hc
    have h2 : (slotAt ch j).isSome = true := by
      cases hx : slotAt ch j with
      | none => exact absurd hx hc
      | some v => rfl
    have h3 := h1.mp h2
    omega
  · have hl := hmi.hchunklen i ch hch
    exact slotAt_eq_none_of_ge ch j (by omega)

theorem chunk_all_none_left (CS : Nat) (m : MapL α) (n bc ec b e : Nat)
    (hmi : MapInv CS m n bc ec b e) (i : Nat) (ch : Chunk α)
    (hch : slotAt m i = some ch) (hlt : (i + 1) * CS ≤ b) (j : Nat) :
    slotAt ch j = none := by
  by_cases hj : j < CS
  · have h1 := hmi.hlive i ch j hch hj
    by_contra hc
    have h2 : (slotAt ch j).isSome = true := by
      cases hx : slotAt ch j with
      | none => exact absurd hx hc
      | some v => rfl
    have h3 := h1.mp h2
    have h4 : (i + 1) * CS = i * CS + CS := by ring
    omega
  · have hl := hmi.hchunklen i ch hch
    exact slotAt_eq_none_of_ge ch j (by omega)

theorem mapInv_relocate (CS : Nat) (m m' : MapL α) (n bc ec b e bc' ec' b' e' : Nat)
    (reloc : Nat → Nat)
    (hmi : MapInv CS m n bc ec b e)
    (hlen' : m'.length = n + 2)
    (hbc' : 1 ≤ bc') (hbe' : bc' ≤ ec') (hec' : ec' ≤ n + 1) (hble' : b' ≤ e')
    (hchar : ∀ t, t < n + 2 → slotAt m' t =
       if bc' ≤ t ∧ t < ec' then slotAt m (reloc t) else none)
    (hreloc : ∀ t, bc' ≤ t → t < ec' → bc ≤ reloc t ∧ reloc t < ec)
    (hmatch : ∀ t j, bc' ≤ t → t < ec' → j < CS →
       ((b ≤ reloc t * CS + j ∧ reloc t * CS + j < e) ↔
        (b' ≤ t * CS + j ∧ t * CS + j < e'))) :
    MapInv CS m' n bc' ec' b' e' := by
  refine ⟨hlen', hbc', hbe', hec', ?_, ?_, ?_, hble', ?_⟩
  · intro i hi
    by_cases hl : i < n + 2
    · rw [hchar i hl, if_neg (by omega)]
    · exact slotAt_eq_none_of_ge m' i (by omega)
  · intro i h1 h2
    rw [hchar i (by omega), if_pos ⟨h1, h2⟩]
    obtain ⟨hr1, hr2⟩ := hreloc i h1 h2
    exact hmi.halloc (reloc i) hr1 hr2
  · intro i ch hch
    by_cases hl : i < n + 2
    · rw [hchar i hl] at hch
      by_cases hin : bc' ≤ i ∧ i < ec'
      · rw [if_pos hin] at hch
        exact hmi.hchunklen (reloc i) ch hch
      · rw [if_neg hin] at hch
        cases hch
    · rw [slotAt_eq_none_of_ge m' i (by omega)] at hch
      cases hch
  · intro i ch j hch hj
    by_cases hl : i < n + 2
    · rw [hchar i hl] at hch
      by_cases hin : bc' ≤ i ∧ i < ec'
      · rw [if_pos hin] at hch
        have h1 := hmi.hlive (reloc i) ch j hch hj
        have h2 := hmatch i j hin.1 hin.2 hj
        rw [h1, h2]
      · rw [if_neg hin] at hch
        cases hch
    · rw [slotAt_eq_none_of_ge m' i (by omega)] at hch
      cases hch

/-- Expand `a * w` over the split `a = c + (a - c)`. -/
theorem mul_sub_expand (a c w : Nat) (h : c ≤ a) : a * w = c * w + (a - c) * w := by
  obtain ⟨dd, hdd⟩ : ∃ dd, a - c = dd := ⟨_, rfl⟩
  rw [hdd]
  have h2 : a = c + dd := by omega
  rw [h2]
  ring

/-- Build `MapInv` for a map whose allocated range `[bc', ec')` splits into a
relocated zone `[bc', mid)` (each chunk is an original chunk, moved whole) and
a dead zone `[mid, ec')` of allocated chunks with no constructed slot. -/
theorem mapInv_build (CS : Nat) (m m' : MapL α) (n n' bc ec b e bc' mid ec' b' e' : Nat)
    (reloc : Nat → Nat)
    (hmi : MapInv CS m n bc ec b e)
    (hlen' : m'.length = n' + 2)
    (hbc' : 1 ≤ bc') (hbm : bc' ≤ mid) (hme : mid ≤ ec') (hec' : ec' ≤ n' + 1)
    (hble' : b' ≤ e')
    (hout : ∀ t, t < n' + 2 → ¬ (bc' ≤ t ∧ t < ec') → slotAt m' t = none)
    (hrel : ∀ t, bc' ≤ t → t < mid → slotAt m' t = slotAt m (reloc t))
    (hreloc : ∀ t, bc' ≤ t → t < mid → bc ≤ reloc t ∧ reloc t < ec)
    (hmatch : ∀ t j, bc' ≤ t → t < mid → j < CS →
       ((b ≤ reloc t * CS + j ∧ reloc t * CS + j < e) ↔
        (b' ≤ t * CS + j ∧ t * CS + j < e')))
    (hdead : ∀ t, mid ≤ t → t < ec' → ∃ ch, slotAt m' t = some ch ∧
        ch.length = CS ∧ ∀ j, slotAt ch j = none)
    (hdeadpos : ∀ t j, mid ≤ t → t < ec' → j < CS →
        ¬ (b' ≤ t * CS + j ∧ t * CS + j < e')) :
    MapInv CS m' n' bc' ec' b' e' := by
  refine ⟨hlen', hbc', by omega, hec', ?_, ?_, ?_, hble', ?_⟩
  · intro i hi
    by_cases hl : i < n' + 2
    · exact hout i hl (by omega)
    · exact slotAt_eq_none_of_ge m' i (by omega)
  · intro i h1 h2
    by_cases hm2 : i < mid
    · rw [hrel i h1 hm2]
      obtain ⟨hr1, hr2⟩ := hreloc i h1 hm2
      exact hmi.halloc _ hr1 hr2
    · obtain ⟨ch, hch, _, _⟩ := hdead i (by omega) h2
      rw [hch]
      rfl
  · intro i ch hch
    by_cases hl : i < n' + 2
    · by_cases hin : bc' ≤ i ∧ i < ec'
      · by_cases hm2 : i < mid
        · rw [hrel i hin.1 hm2] at hch
          exact hmi.hchunklen _ ch hch
        · obtain ⟨ch2, hch2, hlen2, _⟩ := hdead i (by omega) hin.2
          rw [hch2] at hch
          injection hch with hcc
          rw [← hcc]
          exact hlen2
      · rw [hout i hl hin] at hch
        cases hch
    · rw [slotAt_eq_none_of_ge m' i (by omega)] at hch
      cases hch
  · intro i ch j hch hj
    by_cases hl : i < n' + 2
    · by_cases hin : bc' ≤ i ∧ i < ec'
      · by_cases hm2 : i < mid
        · rw [hrel i hin.1 hm2] at hch
          exact (hmi.hlive _ ch j hch hj).trans (hmatch i j hin.1 hm2 hj)
        · obtain ⟨ch2, hch2, _, hnone⟩ := hdead i (by omega) hin.2
          rw [hch2] at hch
          injection hch with hcc
          rw [← hcc, hnone j]
          exact iff_of_false (by simp) (hdeadpos i j (by omega) hin.2 hj)
      · rw [hout i hl hin] at hch
        cases hch
    · rw [slotAt_eq_none_of_ge m' i (by omega)] at hch
      cases hch

/-- Reading a linear slot through a map whose chunk was moved `q` whole chunks
to the left reads the original position `q * CS` further right. -/
theorem readLin_shift (CS : Nat) (h0 : 0 < CS) (m m' : MapL α) (l q : Nat)
    (hch : slotAt m' (l / CS) = slotAt m (l / CS + q)) :
    readLin CS m' l = readLin CS m (l + q * CS) := by
  unfold readLin readPos
  have h1 : (l + q * CS) / CS = l / CS + q := by
    rw [Nat.add_mul_div_right _ _ h0]
  have h2 : (l + q * CS) % CS = l % CS := by
    rw [Nat.add_mul_mod_self_right]
  rw [h1, h2, hch]

/-- Reading a linear slot only looks at the chunk holding it. -/
theorem readLin_congr_chunk (CS : Nat) (m m' : MapL α) (l : Nat)
    (hch : slotAt m' (l / CS) = slotAt m (l / CS)) :
    readLin CS m' l = readLin CS m l := by
  unfold readLin readPos
  rw [hch]

/-- The opening move of `rearrange_end`: swapping the live chunk block
`[bic, bic + cnt)` down to `[nbc, nbc + cnt)` (disjoint ranges inside the
allocated region) preserves the map invariant with the live linear range
shifted down by whole chunks, and each relocated chunk slot reads the original
one. -/
theorem mapInv_swap_live (CS : Nat) (m : MapL α) (n bc ec b e nbc bic cnt ib : Nat)
    (hmi : MapInv CS m n bc ec b e)
    (hb : b = bic * CS + ib) (hib : ib < CS)
    (he2 : e ≤ (bic + cnt) * CS)
    (hbicbc : bc ≤ bic) (heicec : bic + cnt ≤ ec)
    (hnbc : bc ≤ nbc) (hdisj : nbc + cnt ≤ bic) :
    MapInv CS (swapSeg m bic nbc cnt) n bc ec (nbc * CS + ib)
      (nbc * CS + ib + (e - b)) ∧
    (∀ t, nbc ≤ t → t < nbc + cnt →
      slotAt (swapSeg m bic nbc cnt) t = slotAt m (t + (bic - nbc))) := by
  have hml := hmi.hlen
  have hecn := hmi.hec
  have hble := hmi.hble
  have hswap := slotAt_swapSeg m bic nbc cnt (Or.inr hdisj) (by omega) (by omega)
  constructor
  · refine mapInv_build CS m (swapSeg m bic nbc cnt) n n bc ec b e bc ec ec
      (nbc * CS + ib) (nbc * CS + ib + (e - b))
      (fun t => if nbc ≤ t ∧ t < nbc + cnt then t + (bic - nbc)
        else if bic ≤ t ∧ t < bic + cnt then t - (bic - nbc) else t)
      hmi (by rw [length_swapSeg]; omega) hmi.hbc hmi.hbe (le_refl ec) hecn
      (by omega) ?_ ?_ ?_ ?_ (by intro t ht1 ht2; omega) (by intro t j ht1 ht2 hj; omega)
    · intro t ht hto
      rw [hswap t]
      rw [if_neg (by omega), if_neg (by omega)]
      exact hmi.hnull t (by omega)
    · intro t ht1 ht2
      rw [hswap t]
      dsimp only
      by_cases h1 : bic ≤ t ∧ t < bic + cnt
      · rw [if_pos h1, if_neg (show ¬ (nbc ≤ t ∧ t < nbc + cnt) by omega), if_pos h1]
        congr 1
        omega
      · rw [if_neg h1]
        by_cases h2 : nbc ≤ t ∧ t < nbc + cnt
        · rw [if_pos h2, if_pos h2]
          congr 1
          omega
        · rw [if_neg h2, if_neg h2, if_neg h1]
    · intro t ht1 ht2
      dsimp only
      split_ifs with ha hb2 <;> omega
    · intro t j ht1 ht2 hj
      dsimp only
      split_ifs with ha hb2
      · have hx1 : (t + (bic - nbc)) * CS = t * CS + (bic - nbc) * CS := by ring
        have hx2 := mul_sub_expand bic nbc CS (by omega)
        omega
      · have hy1 := lin_lt_of_outer_lt CS (t - (bic - nbc)) bic j hj (by omega)
        have hy2 := lin_ge_of_outer_ge CS t (nbc + cnt) j (by omega)
        have hy3 : (bic + cnt) * CS = bic * CS + cnt * CS := by ring
        have hy4 : (nbc + cnt) * CS = nbc * CS + cnt * CS := by ring
        exact iff_of_false (by omega) (by omega)
      · rcases (show t < nbc ∨ (nbc + cnt ≤ t ∧ t < bic) ∨ bic + cnt ≤ t by omega)
          with hc | hc | hc
        · have hz1 := lin_lt_of_outer_lt CS t bic j hj (by omega)
          have hz2 := lin_lt_of_outer_lt CS t nbc j hj hc
          exact iff_of_false (by omega) (by omega)
        · have hz1 := lin_lt_of_outer_lt CS t bic j hj hc.2
          have hz2 := lin_ge_of_outer_ge CS t (nbc + cnt) j hc.1
          have hy3 : (bic + cnt) * CS = bic * CS + cnt * CS := by ring
          have hy4 : (nbc + cnt) * CS = nbc * CS + cnt * CS := by ring
          exact iff_of_false (by omega) (by omega)
        · have hz1 := lin_ge_of_outer_ge CS t (bic + cnt) j hc
          have hz2 := lin_ge_of_outer_ge CS t (nbc + cnt) j (by omega)
          have hy3 : (bic + cnt) * CS = bic * CS + cnt * CS := by ring
          have hy4 : (nbc + cnt) * CS = nbc * CS + cnt * CS := by ring
          exact iff_of_false (by omega) (by omega)
  · intro t ht1 ht2
    rw [hswap t, if_neg (by omega), if_pos ⟨ht1, ht2⟩]
    congr 1
    omega

/-- `center(left, right)` preserves the map invariant and an arbitrary
protected chunk window `[lo, hi)` that contains the live range, provided the
offsets `left`/`right` measure the free chunks on each side of the window and
the donation fits (it can neither push `begin_chunk` past the left sentinel
nor `end_chunk` past the right one). -/
theorem center_spec (CS : Nat) (d : Deque α) (left right : Int) (lo hi b e : Nat)
    (hmi : MapInv CS d.map d.numChunks d.beginChunk d.endChunk b e)
    (hlole : d.beginChunk ≤ lo) (hlh : lo ≤ hi) (hhec : hi ≤ d.endChunk)
    (hblo : lo * CS ≤ b) (hehi : e ≤ hi * CS)
    (hleft : left = (lo : Int) - d.beginChunk)
    (hright : right = (d.endChunk : Int) - hi)
    (hfitL : right - left ≤ 2 * (d.beginChunk : Int) - 1)
    (hfitR : left - right ≤ 2 * ((d.numChunks : Int) + 1 - d.endChunk)) :
    MapInv CS (center d left right).map d.numChunks (center d left right).beginChunk
      (center d left right).endChunk b e ∧
    (∀ t, lo ≤ t → t < hi →
      slotAt (center d left right).map t = slotAt d.map t) ∧
    (center d left right).beginChunk ≤ lo ∧ hi ≤ (center d left right).endChunk ∧
    (center d left right).numChunks = d.numChunks ∧
    (center d left right).beginIt = d.beginIt ∧
    (center d left right).endIt = d.endIt := by
  have hml := hmi.hlen
  have hbc1 := hmi.hbc
  have hbce := hmi.hbe
  have hecn := hmi.hec
  by_cases hdon : 0 ≤ Int.tdiv (right - left) 2
  · -- donation ≥ 0: swap `D` chunks from the right end to just before `begin_chunk`
    obtain ⟨D, hDdef⟩ : ∃ D, (Int.tdiv (right - left) 2).toNat = D := ⟨_, rfl⟩
    have hDval : (D : Int) = Int.tdiv (right - left) 2 := by
      rw [← hDdef]
      exact Int.toNat_of_nonneg hdon
    have hDfacts : D + 1 ≤ d.beginChunk ∧ D + hi ≤ d.endChunk := by
      rcases le_or_lt 0 (right - left) with hqs | hqs
      · have hDe : (D : Int) = (right - left) / 2 := by
          rw [hDval, Int.tdiv_eq_ediv hqs (by norm_num)]
        omega
      · have h1 : Int.tdiv (right - left) 2 = -(Int.tdiv (left - right) 2) := by
          have h0 : right - left = -(left - right) := by ring
          rw [h0, Int.neg_tdiv]
        have h2 : 0 ≤ Int.tdiv (left - right) 2 :=
          Int.tdiv_nonneg (by omega) (by norm_num)
        have h3 : (D : Int) = 0 := by omega
        omega
    obtain ⟨hD1, hD2⟩ := hDfacts
    have hcen : center d left right = { d with
        map := swapSeg d.map (d.endChunk - D) (d.beginChunk - D) D,
        beginChunk := d.beginChunk - D, endChunk := d.endChunk - D } := by
      simp only [center]
      rw [if_pos hdon, hDdef]
    rw [hcen]
    dsimp only
    have hswap := slotAt_swapSeg d.map (d.endChunk - D) (d.beginChunk - D) D
      (Or.inr (by omega)) (by omega) (by omega)
    refine ⟨?_, ?_, by omega, by omega, rfl, rfl, rfl⟩
    · refine mapInv_relocate CS d.map _ d.numChunks d.beginChunk d.endChunk b e
        (d.beginChunk - D) (d.endChunk - D) b e
        (fun t => if t < d.beginChunk then t + (d.endChunk - d.beginChunk) else t)
        hmi ?_ (by omega) (by omega) (by omega) hmi.hble ?_ ?_ ?_
      · rw [length_swapSeg]
        omega
      · intro t ht
        rw [hswap t]
        dsimp only
        by_cases h1 : d.endChunk - D ≤ t ∧ t < d.endChunk - D + D
        · rw [if_pos h1, if_neg (by omega)]
          exact hmi.hnull _ (Or.inl (by omega))
        · rw [if_neg h1]
          by_cases h2 : d.beginChunk - D ≤ t ∧ t < d.beginChunk - D + D
          · rw [if_pos h2, if_pos (by omega), if_pos (by omega : t < d.beginChunk)]
            congr 1
            omega
          · rw [if_neg h2]
            by_cases h3 : d.beginChunk - D ≤ t ∧ t < d.endChunk - D
            · rw [if_pos h3, if_neg (by omega : ¬ t < d.beginChunk)]
            · rw [if_neg h3]
              exact hmi.hnull t (by omega)
      · intro t h1 h2
        dsimp only
        split_ifs with ht <;> omega
      · intro t j h1 h2 hj
        dsimp only
        split_ifs with ht
        · have ha := lin_ge_of_outer_ge CS (t + (d.endChunk - d.beginChunk)) hi j (by omega)
          have hb2 := lin_lt_of_outer_lt CS t lo j hj (by omega)
          exact iff_of_false (by omega) (by omega)
        · exact Iff.rfl
    · intro t h1 h2
      rw [hswap t, if_neg (by omega), if_neg (by omega)]
  · -- donation < 0: swap `D` chunks from just after `begin_chunk` to the right end
    have hdneg : Int.tdiv (right - left) 2 < 0 := by omega
    obtain ⟨D, hDdef⟩ : ∃ D, (-(Int.tdiv (right - left) 2)).toNat = D := ⟨_, rfl⟩
    have hDval : (D : Int) = -(Int.tdiv (right - left) 2) := by
      rw [← hDdef]
      exact Int.toNat_of_nonneg (by omega)
    have hq : 0 ≤ left - right := by
      by_contra hc
      have := Int.tdiv_nonneg (a := right - left) (b := 2) (by omega) (by norm_num)
      omega
    have hDe : (D : Int) = (left - right) / 2 := by
      rw [hDval, ← Int.neg_tdiv, neg_sub, Int.tdiv_eq_ediv hq (by norm_num)]
    have hDfacts : d.beginChunk + D ≤ lo ∧ d.endChunk + D ≤ d.numChunks + 1 := by
      omega
    obtain ⟨hD1, hD2⟩ := hDfacts
    have hcen : center d left right = { d with
        map := swapSeg d.map d.beginChunk d.endChunk D,
        beginChunk := d.beginChunk + D, endChunk := d.endChunk + D } := by
      simp only [center]
      rw [if_neg hdon, hDdef]
    rw [hcen]
    dsimp only
    have hswap := slotAt_swapSeg d.map d.beginChunk d.endChunk D
      (Or.inl (by omega)) (by omega) (by omega)
    refine ⟨?_, ?_, by omega, by omega, rfl, rfl, rfl⟩
    · refine mapInv_relocate CS d.map _ d.numChunks d.beginChunk d.endChunk b e
        (d.beginChunk + D) (d.endChunk + D) b e
        (fun t => if d.endChunk ≤ t then t - (d.endChunk - d.beginChunk) else t)
        hmi ?_ (by omega) (by omega) (by omega) hmi.hble ?_ ?_ ?_
      · rw [length_swapSeg]
        omega
      · intro t ht
        rw [hswap t]
        dsimp only
        by_cases h1 : d.beginChunk ≤ t ∧ t < d.beginChunk + D
        · rw [if_pos h1, if_neg (by omega)]
          exact hmi.hnull _ (Or.inr (by omega))
        · rw [if_neg h1]
          by_cases h2 : d.endChunk ≤ t ∧ t < d.endChunk + D
          · rw [if_pos h2, if_pos (by omega), if_pos (by omega : d.endChunk ≤ t)]
            congr 1
            omega
          · rw [if_neg h2]
            by_cases h3 : d.beginChunk + D ≤ t ∧ t < d.endChunk + D
            · rw [if_pos h3, if_neg (by omega : ¬ d.endChunk ≤ t)]
            · rw [if_neg h3]
              exact hmi.hnull t (by omega)
      · intro t h1 h2
        dsimp only
        split_ifs with ht <;> omega
      · intro t j h1 h2 hj
        dsimp only
        split_ifs with ht
        · have ha := lin_lt_of_outer_lt CS (t - (d.endChunk - d.beginChunk)) lo j hj (by omega)
          have hb2 := lin_ge_of_outer_ge CS t hi j (by omega)
          exact iff_of_false (by omega) (by omega)
        · exact Iff.rfl
    · intro t h1 h2
      rw [hswap t, if_neg (by omega), if_neg (by omega)]

/-- An allocated chunk entirely left of the live range: it exists, has length
`CS`, and has no constructed slot. -/
theorem dead_chunk_left (CS : Nat) (m : MapL α) (n bc ec b e : Nat)
    (hmi : MapInv CS m n bc ec b e) (y : Nat) (h1 : bc ≤ y) (h2 : y < ec)
    (h3 : (y + 1) * CS ≤ b) :
    ∃ ch, slotAt m y = some ch ∧ ch.length = CS ∧ ∀ j, slotAt ch j = none := by
  have hs := hmi.halloc y h1 h2
  cases hch : slotAt m y with
  | none =>
      rw [hch] at hs
      cases hs
  | some ch =>
      exact ⟨ch, rfl, hmi.hchunklen y ch hch,
        fun j => chunk_all_none_left CS m n bc ec b e hmi y ch hch h3 j⟩

/-- An allocated chunk entirely right of the live range: it exists, has length
`CS`, and has no constructed slot. -/
theorem dead_chunk_right (CS : Nat) (m : MapL α) (n bc ec b e : Nat)
    (hmi : MapInv CS m n bc ec b e) (y : Nat) (h1 : bc ≤ y) (h2 : y < ec)
    (h3 : e ≤ y * CS) :
    ∃ ch, slotAt m y = some ch ∧ ch.length = CS ∧ ∀ j, slotAt ch j = none := by
  have hs := hmi.halloc y h1 h2
  cases hch : slotAt m y with
  | none =>
      rw [hch] at hs
      cases hs
  | some ch =>
      exact ⟨ch, rfl, hmi.hchunklen y ch hch,
        fun j => chunk_all_none_right CS m n bc ec b e hmi y ch hch h3 j⟩

/-- The common tail of `rearrange_end`'s coalescing branch: after the swaps
have produced a contiguous layout (live chunks `[nbc, nbc + cnt)` holding the
original live block, dead allocated chunks up to `ec1`, nulls elsewhere), the
allocation loop tops the region up to `nbc + active` chunks and the result —
balanced, or re-centred by `center` — satisfies the rearrangement
post-conditions. -/
theorem rearrange_end_tail (CS : Nat) (d : Deque α) (m3 : MapL α)
    (k bic eic b e nbc ec1 ec2 : Nat)
    (h0 : 0 < CS)
    (hmi : MapInv CS d.map d.numChunks d.beginChunk d.endChunk b e)
    (hblin : b = bic * CS + d.beginIt.inner) (hib : d.beginIt.inner < CS)
    (hee : e ≤ eic * CS) (hbe_io : bic ≤ eic)
    (heic : eic ≤ d.endChunk) (hbcb : d.beginChunk ≤ bic)
    (hact : eic - bic + k ≤ d.numChunks / 3)
    (hedge : d.numChunks + 2 ≤ eic + k)
    (hnbc : nbc = 1 + (d.numChunks - (eic - bic + k)) / 2)
    (hco : nbc < d.beginChunk)
    (hec1 : ec1 = nbc + (d.endChunk - d.beginChunk))
    (hec2 : ec2 = max ec1 (nbc + (eic - bic + k)))
    (hlen3 : m3.length = d.numChunks + 2)
    (hlive3 : ∀ t, nbc ≤ t → t < nbc + (eic - bic) →
        slotAt m3 t = slotAt d.map (t + (bic - nbc)))
    (hdead3 : ∀ t, nbc + (eic - bic) ≤ t → t < ec1 → ∃ ch, slotAt m3 t = some ch ∧
        ch.length = CS ∧ ∀ j, slotAt ch j = none)
    (hnull3 : ∀ t, t < d.numChunks + 2 → ¬ (nbc ≤ t ∧ t < ec1) → slotAt m3 t = none) :
    ∀ d2 : Deque α,
      d2.numChunks = d.numChunks →
      d2.map = allocRange CS m3 ec1 (nbc + (eic - bic + k) - ec1) →
      d2.beginChunk = nbc → d2.endChunk = ec2 →
      d2.beginIt = ⟨nbc, d.beginIt.inner⟩ →
      d2.endIt = iterAdd CS ⟨nbc, d.beginIt.inner⟩ ((e - b : Nat) : Int) →
      ∀ r : Deque α,
        (ec1 ≤ nbc + (eic - bic + k) + 1 → r = d2) →
        (¬ ec1 ≤ nbc + (eic - bic + k) + 1 →
          r = center d2 ((nbc : Int) - nbc)
            ((ec2 : Int) - ((nbc + (eic - bic) : Nat) : Int) - (k : Int))) →
        r.numChunks = d.numChunks ∧
        r.beginIt = ⟨nbc, d.beginIt.inner⟩ ∧
        r.endIt = iterAdd CS ⟨nbc, d.beginIt.inner⟩ ((e - b : Nat) : Int) ∧
        MapInv CS r.map d.numChunks r.beginChunk r.endChunk
          (nbc * CS + d.beginIt.inner) (nbc * CS + d.beginIt.inner + (e - b)) ∧
        r.beginChunk ≤ nbc ∧ nbc + (eic - bic) + k ≤ r.endChunk ∧
        window CS r.map (nbc * CS + d.beginIt.inner) (e - b) =
          window CS d.map b (e - b) := by
  intro d2 hd2n hd2m hd2bc hd2ec hd2b hd2e r hrbal hrcen
  have hml := hmi.hlen
  have hbc1 := hmi.hbc
  have hbce := hmi.hbe
  have hecn := hmi.hec
  have hble := hmi.hble
  have hy3 := mul_sub_expand eic bic CS hbe_io
  have hy4 : (nbc + (eic - bic)) * CS = nbc * CS + (eic - bic) * CS := by ring
  have hy5 : (nbc + (eic - bic + k)) * CS = nbc * CS + (eic - bic + k) * CS := by ring
  have hy6 : (eic - bic + k) * CS = (eic - bic) * CS + k * CS := by ring
  have halloc4 := slotAt_allocRange CS m3 ec1 (nbc + (eic - bic + k) - ec1)
    (by rw [hlen3]; omega)
  have hlive4 : ∀ t, nbc ≤ t → t < nbc + (eic - bic) →
      slotAt d2.map t = slotAt d.map (t + (bic - nbc)) := by
    intro t h1 h2
    rw [hd2m, halloc4 t, if_neg (by omega)]
    exact hlive3 t h1 h2
  have hdead4 : ∀ t, nbc + (eic - bic) ≤ t → t < ec2 → ∃ ch, slotAt d2.map t = some ch ∧
      ch.length = CS ∧ ∀ j, slotAt ch j = none := by
    intro t h1 h2
    rw [hd2m, halloc4 t]
    by_cases hz : ec1 ≤ t ∧ t < ec1 + (nbc + (eic - bic + k) - ec1)
    · rw [if_pos hz]
      refine ⟨freshChunk α CS, rfl, by simp [freshChunk], ?_⟩
      intro j
      unfold freshChunk slotAt
      simp only [List.getElem?_replicate]
      split <;> rfl
    · rw [if_neg hz]
      exact hdead3 t h1 (by omega)
  have hnull4 : ∀ t, t < d.numChunks + 2 → ¬ (nbc ≤ t ∧ t < ec2) →
      slotAt d2.map t = none := by
    intro t h1 h2
    rw [hd2m, halloc4 t, if_neg (by omega)]
    exact hnull3 t h1 (by omega)
  have hlen4 : d2.map.length = d.numChunks + 2 := by
    rw [hd2m, length_allocRange, hlen3]
  have hmi2 : MapInv CS d2.map d.numChunks nbc ec2 (nbc * CS + d.beginIt.inner)
      (nbc * CS + d.beginIt.inner + (e - b)) := by
    refine mapInv_build CS d.map d2.map d.numChunks d.numChunks d.beginChunk d.endChunk b e
      nbc (nbc + (eic - bic)) ec2 (nbc * CS + d.beginIt.inner)
      (nbc * CS + d.beginIt.inner + (e - b)) (fun t => t + (bic - nbc))
      hmi hlen4 (by omega) (by omega) (by omega) (by omega) (by omega)
      hnull4 hlive4 ?_ ?_ hdead4 ?_
    · intro t h1 h2
      dsimp only
      omega
    · intro t j h1 h2 hj
      dsimp only
      have hx1 : (t + (bic - nbc)) * CS = t * CS + (bic - nbc) * CS := by ring
      have hx2 := mul_sub_expand bic nbc CS (by omega)
      omega
    · intro t j h1 h2 hj
      have hz := lin_ge_of_outer_ge CS t (nbc + (eic - bic)) j h1
      omega
  have hwin2 : window CS d2.map (nbc * CS + d.beginIt.inner) (e - b) =
      window CS d.map b (e - b) := by
    apply window_congr
    intro kk hkk
    have hx2 := mul_sub_expand bic nbc CS (by omega)
    have hdiv_lo : nbc ≤ (nbc * CS + d.beginIt.inner + kk) / CS :=
      (Nat.le_div_iff_mul_le h0).mpr (by omega)
    have hdiv_hi : (nbc * CS + d.beginIt.inner + kk) / CS < nbc + (eic - bic) :=
      (Nat.div_lt_iff_lt_mul h0).mpr (by omega)
    rw [readLin_shift CS h0 d.map d2.map (nbc * CS + d.beginIt.inner + kk)
      (bic - nbc) (hlive4 _ hdiv_lo hdiv_hi)]
    congr 1
    omega
  by_cases hbal : ec1 ≤ nbc + (eic - bic + k) + 1
  · have hr := hrbal hbal
    subst hr
    refine ⟨hd2n, hd2b, hd2e, ?_, by omega, by omega, hwin2⟩
    rw [hd2bc, hd2ec]
    exact hmi2
  · have hr := hrcen hbal
    have hcs := center_spec CS d2 ((nbc : Int) - nbc)
      ((ec2 : Int) - ((nbc + (eic - bic) : Nat) : Int) - (k : Int)) nbc
      (nbc + (eic - bic + k))
      (nbc * CS + d.beginIt.inner) (nbc * CS + d.beginIt.inner + (e - b))
      (show MapInv CS d2.map d2.numChunks d2.beginChunk d2.endChunk
          (nbc * CS + d.beginIt.inner) (nbc * CS + d.beginIt.inner + (e - b)) by
        rw [hd2n, hd2bc, hd2ec]; exact hmi2)
      (by omega) (by omega) (by omega) (by omega)
      (by omega) (by omega) (by omega) (by omega) (by omega)
    obtain ⟨hcr1, hcr2, hcr3, hcr4, hcr5, hcr6, hcr7⟩ := hcs
    rw [← hr] at hcr1 hcr2 hcr3 hcr4 hcr5 hcr6 hcr7
    refine ⟨by omega, by rw [hcr6, hd2b], by rw [hcr7, hd2e], ?_, by omega, by omega, ?_⟩
    · have hgoal := hcr1
      rw [hd2n] at hgoal
      exact hgoal
    · have hw3 : window CS r.map (nbc * CS + d.beginIt.inner) (e - b) =
          window CS d2.map (nbc * CS + d.beginIt.inner) (e - b) := by
        apply window_congr
        intro kk hkk
        have hx2 := mul_sub_expand bic nbc CS (by omega)
        have hdiv_lo : nbc ≤ (nbc * CS + d.beginIt.inner + kk) / CS :=
          (Nat.le_div_iff_mul_le h0).mpr (by omega)
        have hdiv_hi : (nbc * CS + d.beginIt.inner + kk) / CS <
            nbc + (eic - bic + k) :=
          (Nat.div_lt_iff_lt_mul h0).mpr (by omega)
        exact readLin_congr_chunk CS d2.map r.map _ (hcr2 _ hdiv_lo hdiv_hi)
      rw [hw3, hwin2]

/-- A freshly `calloc`-style map (all-null slots) reads `none` everywhere. -/
theorem slotAt_replicate_none {β : Type} (n t : Nat) :
    slotAt (List.replicate n (none : Option β)) t = none := by
  unfold slotAt
  rw [List.getElem?_replicate]
  split <;> rfl

/-- Reading a window through whole-chunk relocation: if `cnt` consecutive
chunks move from base `o` to base `o'`, the windows agree. -/
theorem window_shift_chunks (CS : Nat) (h0 : 0 < CS) (m m' : MapL α)
    (o o' ib len cnt : Nat) (hlen : ib + len ≤ cnt * CS)
    (hch : ∀ u, u < cnt → slotAt m' (o' + u) = slotAt m (o + u)) :
    window CS m' (o' * CS + ib) len = window CS m (o * CS + ib) len := by
  apply window_congr
  intro kk hkk
  unfold readLin readPos
  have h1 : (o' * CS + ib + kk) / CS = o' + (ib + kk) / CS := by
    rw [show o' * CS + ib + kk = (ib + kk) + o' * CS from by ring,
      Nat.add_mul_div_right _ _ h0, Nat.add_comm]
  have h2 : (o' * CS + ib + kk) % CS = (ib + kk) % CS := by
    rw [show o' * CS + ib + kk = (ib + kk) + o' * CS from by ring,
      Nat.add_mul_mod_self_right]
  have h3 : (o * CS + ib + kk) / CS = o + (ib + kk) / CS := by
    rw [show o * CS + ib + kk = (ib + kk) + o * CS from by ring,
      Nat.add_mul_div_right _ _ h0, Nat.add_comm]
  have h4 : (o * CS + ib + kk) % CS = (ib + kk) % CS := by
    rw [show o * CS + ib + kk = (ib + kk) + o * CS from by ring,
      Nat.add_mul_mod_self_right]
  rw [h1, h2, h3, h4, hch ((ib + kk) / CS) ((Nat.div_lt_iff_lt_mul h0).mpr (by omega))]

/-- `rearrange_end(k, bic, eic)` from a right-edge-exhausted state with few
active chunks: the live block is recentred at `nbc = data +
(num_chunks - active_chunks)/2`, iterators are rebased, the map invariant
holds for the new layout, the contents window is preserved, and at least `k`
allocated chunks follow the live chunks. -/
theorem rearrange_end_spec (CS : Nat) (d : Deque α) (k bic eic b e : Nat)
    (h0 : 0 < CS)
    (hmi : MapInv CS d.map d.numChunks d.beginChunk d.endChunk b e)
    (hb : b = iterLin CS d.beginIt)
    (he : e = iterLin CS d.endIt)
    (hbic : bic = d.beginIt.outer)
    (hib : d.beginIt.inner < CS)
    (heic : eic ≤ d.endChunk)
    (hbcb : d.beginChunk ≤ bic)
    (hee : e ≤ eic * CS)
    (hact : eic - bic + k ≤ d.numChunks / 3)
    (hedge : d.numChunks + 2 ≤ eic + k) :
    ∀ r nbc, r = rearrange_end CS d k bic eic →
      nbc = 1 + (d.numChunks - (eic - bic + k)) / 2 →
      r.numChunks = d.numChunks ∧
      r.beginIt = ⟨nbc, d.beginIt.inner⟩ ∧
      r.endIt = iterAdd CS ⟨nbc, d.beginIt.inner⟩ ((e - b : Nat) : Int) ∧
      MapInv CS r.map d.numChunks r.beginChunk r.endChunk
        (nbc * CS + d.beginIt.inner) (nbc * CS + d.beginIt.inner + (e - b)) ∧
      r.beginChunk ≤ nbc ∧ nbc + (eic - bic) + k ≤ r.endChunk ∧
      window CS r.map (nbc * CS + d.beginIt.inner) (e - b) =
        window CS d.map b (e - b) := by
  intro r nbc hr hnbc
  have hml := hmi.hlen
  have hbc1 := hmi.hbc
  have hbce := hmi.hbe
  have hecn := hmi.hec
  have hble := hmi.hble
  have hblin : b = bic * CS + d.beginIt.inner := by
    rw [hb, hbic]
    rfl
  have hbe_io : bic ≤ eic := by
    by_contra hc
    have h1 : (eic + 1) * CS ≤ bic * CS := Nat.mul_le_mul_right CS (by omega)
    have h2 : (eic + 1) * CS = eic * CS + CS := by ring
    omega
  have hdisj : nbc + (eic - bic) ≤ bic := by omega
  have hnel : iterSub CS d.endIt d.beginIt = ((e - b : Nat) : Int) := by
    rw [iterSub_eq, ← hb, ← he]
    omega
  have hnelN : (iterSub CS d.endIt d.beginIt).toNat = e - b := by
    rw [hnel]
    rfl
  have hswap1 := slotAt_swapSeg d.map bic nbc (eic - bic) (Or.inr hdisj)
    (by omega) (by omega)
  simp only [rearrange_end] at hr
  rw [hnelN, ← hnbc] at hr
  by_cases hco : d.beginChunk > nbc
  · rw [if_pos hco] at hr
    by_cases hcase : d.beginChunk ≤ nbc + (eic - bic)
    · -- coalesce, case A: begin_chunk lies inside the relocated block's shadow
      rw [if_pos hcase, if_pos hcase] at hr
      dsimp only at hr
      obtain ⟨S, hS⟩ : ∃ x, eic - (nbc + (eic - bic) - d.beginChunk) = x := ⟨_, rfl⟩
      rw [hS] at hr
      have hSval : S = d.beginChunk + (bic - nbc) := by omega
      obtain ⟨m3v, hm3⟩ : ∃ x,
          swapSeg (swapSeg d.map bic nbc (eic - bic)) S bic (d.endChunk - S) = x :=
        ⟨_, rfl⟩
      rw [hm3] at hr
      obtain ⟨ec1, hec1d⟩ : ∃ x, bic + (d.endChunk - S) = x := ⟨_, rfl⟩
      rw [hec1d] at hr
      obtain ⟨ec2, hec2d⟩ : ∃ x, max ec1 (nbc + (eic - bic + k)) = x := ⟨_, rfl⟩
      rw [hec2d] at hr
      have hec1v : ec1 = nbc + (d.endChunk - d.beginChunk) := by omega
      have hmidA : ∀ u, bic ≤ u → u < S →
          slotAt (swapSeg d.map bic nbc (eic - bic)) u = none := by
        intro u h1 h2
        rw [hswap1 u, if_pos ⟨h1, by omega⟩]
        exact hmi.hnull _ (Or.inl (by omega))
      have hswap2 := slotAt_swapSeg_shift (swapSeg d.map bic nbc (eic - bic)) S bic
        (d.endChunk - S) (by omega) (by rw [length_swapSeg]; omega) hmidA
      have hlive3 : ∀ t, nbc ≤ t → t < nbc + (eic - bic) →
          slotAt m3v t = slotAt d.map (t + (bic - nbc)) := by
        intro t h1 h2
        rw [← hm3, hswap2 t, if_neg (by omega), if_neg (by omega), hswap1 t,
          if_neg (by omega), if_pos ⟨h1, h2⟩]
        congr 1
        omega
      have hdead3 : ∀ t, nbc + (eic - bic) ≤ t → t < ec1 →
          ∃ ch, slotAt m3v t = some ch ∧ ch.length = CS ∧ ∀ j, slotAt ch j = none := by
        intro t h1 h2
        rw [← hm3, hswap2 t]
        by_cases hz : bic ≤ t ∧ t < bic + (d.endChunk - S)
        · rw [if_pos hz]
          rw [hswap1 (S + (t - bic))]
          by_cases hx1 : bic ≤ S + (t - bic) ∧ S + (t - bic) < bic + (eic - bic)
          · rw [if_pos hx1]
            refine dead_chunk_left CS d.map d.numChunks d.beginChunk d.endChunk b e
              hmi (nbc + (S + (t - bic) - bic)) (by omega) (by omega) ?_
            have hmm := Nat.mul_le_mul_right CS
              (show nbc + (S + (t - bic) - bic) + 1 ≤ bic by omega)
            omega
          · rw [if_neg hx1, if_neg (by omega)]
            refine dead_chunk_right CS d.map d.numChunks d.beginChunk d.endChunk b e
              hmi (S + (t - bic)) (by omega) (by omega) ?_
            have hmm := Nat.mul_le_mul_right CS (show eic ≤ S + (t - bic) by omega)
            omega
        · rw [if_neg hz, if_neg (by omega), hswap1 t, if_neg (by omega),
            if_neg (by omega)]
          refine dead_chunk_left CS d.map d.numChunks d.beginChunk d.endChunk b e
            hmi t (by omega) (by omega) ?_
          have hmm := Nat.mul_le_mul_right CS (show t + 1 ≤ bic by omega)
          omega
      have hnull3 : ∀ t, t < d.numChunks + 2 → ¬ (nbc ≤ t ∧ t < ec1) →
          slotAt m3v t = none := by
        intro t h1 h2
        rw [← hm3, hswap2 t]
        by_cases ht : t < nbc
        · rw [if_neg (by omega), if_neg (by omega), hswap1 t, if_neg (by omega),
            if_neg (by omega)]
          exact hmi.hnull t (Or.inl (by omega))
        · have ht2 : ec1 ≤ t := by omega
          by_cases ht3 : t < S + (d.endChunk - S)
          · rw [if_neg (by omega), if_pos ⟨by omega, ht3⟩]
          · rw [if_neg (by omega), if_neg (by omega), hswap1 t, if_neg (by omega),
              if_neg (by omega)]
            exact hmi.hnull t (Or.inr (by omega))
      exact rearrange_end_tail CS d m3v k bic eic b e nbc ec1 ec2 h0 hmi hblin hib
        hee hbe_io heic hbcb hact hedge hnbc hco hec1v hec2d.symm
        (by rw [← hm3, length_swapSeg, length_swapSeg]; exact hml)
        hlive3 hdead3 hnull3
        (Deque.mk d.numChunks (allocRange CS m3v ec1 (nbc + (eic - bic + k) - ec1))
          nbc ec2 ⟨nbc, d.beginIt.inner⟩
          (iterAdd CS ⟨nbc, d.beginIt.inner⟩ ((e - b : Nat) : Int)))
        rfl rfl rfl rfl rfl rfl r
        (fun hx => by rw [hr, if_pos hx])
        (fun hx => by rw [hr, if_neg hx])
    · -- coalesce, case B: free chunks before begin_chunk are moved behind the block
      rw [if_neg hcase, if_neg hcase] at hr
      dsimp only at hr
      obtain ⟨S, hS⟩ : ∃ x, eic - 0 = x := ⟨_, rfl⟩
      rw [hS] at hr
      have hSval : S = eic := by omega
      obtain ⟨F, hF⟩ : ∃ x, nbc + (eic - bic) + (bic - d.beginChunk) = x := ⟨_, rfl⟩
      rw [hF] at hr
      obtain ⟨m3v, hm3⟩ : ∃ x,
          swapSeg (swapSeg (swapSeg d.map bic nbc (eic - bic)) d.beginChunk
            (nbc + (eic - bic)) (bic - d.beginChunk)) S F (d.endChunk - S) = x :=
        ⟨_, rfl⟩
      rw [hm3] at hr
      obtain ⟨ec1, hec1d⟩ : ∃ x, F + (d.endChunk - S) = x := ⟨_, rfl⟩
      rw [hec1d] at hr
      obtain ⟨ec2, hec2d⟩ : ∃ x, max ec1 (nbc + (eic - bic + k)) = x := ⟨_, rfl⟩
      rw [hec2d] at hr
      have hec1v : ec1 = nbc + (d.endChunk - d.beginChunk) := by omega
      have hmidB1 : ∀ u, nbc + (eic - bic) ≤ u → u < d.beginChunk →
          slotAt (swapSeg d.map bic nbc (eic - bic)) u = none := by
        intro u h1 h2
        rw [hswap1 u, if_neg (by omega), if_neg (by omega)]
        exact hmi.hnull u (Or.inl h2)
      have hswap2 := slotAt_swapSeg_shift (swapSeg d.map bic nbc (eic - bic))
        d.beginChunk (nbc + (eic - bic)) (bic - d.beginChunk)
        (by omega) (by rw [length_swapSeg]; omega) hmidB1
      have hmidB2 : ∀ u, F ≤ u → u < S →
          slotAt (swapSeg (swapSeg d.map bic nbc (eic - bic)) d.beginChunk
            (nbc + (eic - bic)) (bic - d.beginChunk)) u = none := by
        intro u h1 h2
        rw [hswap2 u]
        by_cases hu : u < bic
        · rw [if_neg (by omega), if_pos ⟨by omega, by omega⟩]
        · rw [if_neg (by omega), if_neg (by omega), hswap1 u,
            if_pos ⟨by omega, by omega⟩]
          exact hmi.hnull _ (Or.inl (by omega))
      have hswap3 := slotAt_swapSeg_shift (swapSeg (swapSeg d.map bic nbc
        (eic - bic)) d.beginChunk (nbc + (eic - bic)) (bic - d.beginChunk)) S F
        (d.endChunk - S) (by omega)
        (by rw [length_swapSeg, length_swapSeg]; omega) hmidB2
      have hlive3 : ∀ t, nbc ≤ t → t < nbc + (eic - bic) →
          slotAt m3v t = slotAt d.map (t + (bic - nbc)) := by
        intro t h1 h2
        rw [← hm3, hswap3 t, if_neg (by omega), if_neg (by omega), hswap2 t,
          if_neg (by omega), if_neg (by omega), hswap1 t, if_neg (by omega),
          if_pos ⟨h1, h2⟩]
        congr 1
        omega
      have hdead3 : ∀ t, nbc + (eic - bic) ≤ t → t < ec1 →
          ∃ ch, slotAt m3v t = some ch ∧ ch.length = CS ∧ ∀ j, slotAt ch j = none := by
        intro t h1 h2
        rw [← hm3, hswap3 t]
        by_cases hz : F ≤ t ∧ t < F + (d.endChunk - S)
        · rw [if_pos hz]
          rw [hswap2 (S + (t - F)), if_neg (by omega), if_neg (by omega),
            hswap1 (S + (t - F)), if_neg (by omega), if_neg (by omega)]
          refine dead_chunk_right CS d.map d.numChunks d.beginChunk d.endChunk b e
            hmi (S + (t - F)) (by omega) (by omega) ?_
          have hmm := Nat.mul_le_mul_right CS (show eic ≤ S + (t - F) by omega)
          omega
        · rw [if_neg hz, if_neg (by omega), hswap2 t,
            if_pos ⟨by omega, by omega⟩, hswap1 (d.beginChunk + (t - (nbc + (eic - bic)))),
            if_neg (by omega), if_neg (by omega)]
          refine dead_chunk_left CS d.map d.numChunks d.beginChunk d.endChunk b e
            hmi (d.beginChunk + (t - (nbc + (eic - bic)))) (by omega) (by omega) ?_
          have hmm := Nat.mul_le_mul_right CS
            (show d.beginChunk + (t - (nbc + (eic - bic))) + 1 ≤ bic by omega)
          omega
      have hnull3 : ∀ t, t < d.numChunks + 2 → ¬ (nbc ≤ t ∧ t < ec1) →
          slotAt m3v t = none := by
        intro t h1 h2
        rw [← hm3, hswap3 t]
        by_cases ht : t < nbc
        · rw [if_neg (by omega), if_neg (by omega), hswap2 t, if_neg (by omega),
            if_neg (by omega), hswap1 t, if_neg (by omega), if_neg (by omega)]
          exact hmi.hnull t (Or.inl (by omega))
        · have ht2 : ec1 ≤ t := by omega
          by_cases ht3 : t < S + (d.endChunk - S)
          · rw [if_neg (by omega), if_pos ⟨by omega, ht3⟩]
          · rw [if_neg (by omega), if_neg (by omega), hswap2 t, if_neg (by omega),
              if_neg (by omega), hswap1 t, if_neg (by omega), if_neg (by omega)]
            exact hmi.hnull t (Or.inr (by omega))
      exact rearrange_end_tail CS d m3v k bic eic b e nbc ec1 ec2 h0 hmi hblin hib
        hee hbe_io heic hbcb hact hedge hnbc hco hec1v hec2d.symm
        (by rw [← hm3, length_swapSeg, length_swapSeg, length_swapSeg]; exact hml)
        hlive3 hdead3 hnull3
        (Deque.mk d.numChunks (allocRange CS m3v ec1 (nbc + (eic - bic + k) - ec1))
          nbc ec2 ⟨nbc, d.beginIt.inner⟩
          (iterAdd CS ⟨nbc, d.beginIt.inner⟩ ((e - b : Nat) : Int)))
        rfl rfl rfl rfl rfl rfl r
        (fun hx => by rw [hr, if_pos hx])
        (fun hx => by rw [hr, if_neg hx])
  · -- no coalescing needed: recenter directly
    rw [if_neg hco] at hr
    have hbcnbc : d.beginChunk ≤ nbc := by omega
    obtain ⟨hm1inv, hm1sl⟩ := mapInv_swap_live CS d.map d.numChunks d.beginChunk
      d.endChunk b e nbc bic (eic - bic) d.beginIt.inner hmi hblin hib
      (by have hc : bic + (eic - bic) = eic := by omega
          rw [hc]
          exact hee)
      hbcb (by omega) hbcnbc hdisj
    have hy3 := mul_sub_expand eic bic CS hbe_io
    have hy4 : (nbc + (eic - bic)) * CS = nbc * CS + (eic - bic) * CS := by ring
    have hy5 : (nbc + (eic - bic + k)) * CS = nbc * CS + (eic - bic + k) * CS := by
      ring
    have hy6 : (eic - bic + k) * CS = (eic - bic) * CS + k * CS := by ring
    have hx2 := mul_sub_expand bic nbc CS (by omega)
    have hcs := center_spec CS
      (Deque.mk d.numChunks (swapSeg d.map bic nbc (eic - bic)) d.beginChunk
        d.endChunk ⟨nbc, d.beginIt.inner⟩
        (iterAdd CS ⟨nbc, d.beginIt.inner⟩ ((e - b : Nat) : Int)))
      ((nbc : Int) - d.beginChunk)
      ((d.endChunk : Int) - ((nbc + (eic - bic) : Nat) : Int) - (k : Int))
      nbc (nbc + (eic - bic + k)) (nbc * CS + d.beginIt.inner)
      (nbc * CS + d.beginIt.inner + (e - b))
      hm1inv hbcnbc (by omega)
      (show nbc + (eic - bic + k) ≤ d.endChunk by omega)
      (by omega) (by omega)
      (show ((nbc : Int) - d.beginChunk) = (nbc : Int) - (d.beginChunk : Int)
        from rfl)
      (show ((d.endChunk : Int) - ((nbc + (eic - bic) : Nat) : Int) - (k : Int)) =
          (d.endChunk : Int) - ((nbc + (eic - bic + k) : Nat) : Int) by
        push_cast
        ring)
      (show ((d.endChunk : Int) - ((nbc + (eic - bic) : Nat) : Int) - (k : Int)) -
          ((nbc : Int) - d.beginChunk) ≤ 2 * (d.beginChunk : Int) - 1 by omega)
      (show ((nbc : Int) - d.beginChunk) -
          ((d.endChunk : Int) - ((nbc + (eic - bic) : Nat) : Int) - (k : Int)) ≤
          2 * ((d.numChunks : Int) + 1 - d.endChunk) by omega)
    obtain ⟨hcr1, hcr2, hcr3, hcr4, hcr5, hcr6, hcr7⟩ := hcs
    rw [← hr] at hcr1 hcr2 hcr3 hcr4 hcr5 hcr6 hcr7
    refine ⟨hcr5, hcr6, hcr7, hcr1, hcr3, by omega, ?_⟩
    have hwm1 : window CS (swapSeg d.map bic nbc (eic - bic))
        (nbc * CS + d.beginIt.inner) (e - b) = window CS d.map b (e - b) := by
      apply window_congr
      intro kk hkk
      have hdiv_lo : nbc ≤ (nbc * CS + d.beginIt.inner + kk) / CS :=
        (Nat.le_div_iff_mul_le h0).mpr (by omega)
      have hdiv_hi : (nbc * CS + d.beginIt.inner + kk) / CS < nbc + (eic - bic) :=
        (Nat.div_lt_iff_lt_mul h0).mpr (by omega)
      rw [readLin_shift CS h0 d.map _ (nbc * CS + d.beginIt.inner + kk)
        (bic - nbc) (hm1sl _ hdiv_lo hdiv_hi)]
      congr 1
      omega
    have hw3 : window CS r.map (nbc * CS + d.beginIt.inner) (e - b) =
        window CS (swapSeg d.map bic nbc (eic - bic))
          (nbc * CS + d.beginIt.inner) (e - b) := by
      apply window_congr
      intro kk hkk
      have hdiv_lo : nbc ≤ (nbc * CS + d.beginIt.inner + kk) / CS :=
        (Nat.le_div_iff_mul_le h0).mpr (by omega)
      have hdiv_hi : (nbc * CS + d.beginIt.inner + kk) / CS <
          nbc + (eic - bic + k) :=
        (Nat.div_lt_iff_lt_mul h0).mpr (by omega)
      exact readLin_congr_chunk CS _ r.map _ (hcr2 _ hdiv_lo hdiv_hi)
    rw [hw3, hwm1]

/-- `reallocate_end(k, bic, eic)`: skeleton. -/
theorem reallocate_end_spec (CS : Nat) (d : Deque α) (k bic eic b e : Nat)
    (h0 : 0 < CS)
    (hmi : MapInv CS d.map d.numChunks d.beginChunk d.endChunk b e)
    (hb : b = iterLin CS d.beginIt)
    (he : e = iterLin CS d.endIt)
    (hbic : bic = d.beginIt.outer)
    (hib : d.beginIt.inner < CS)
    (heic : eic ≤ d.endChunk)
    (hbcb : d.beginChunk ≤ bic)
    (hee : e ≤ eic * CS)
    (hact2 : d.numChunks / 3 < eic - bic + k)
    (hedge : d.numChunks + 2 ≤ eic + k) :
    ∀ r nbc, r = reallocate_end CS d k bic eic →
      nbc = 1 + (eic - bic + k) →
      r.numChunks = (eic - bic + k) * 3 ∧
      r.beginIt = ⟨nbc, d.beginIt.inner⟩ ∧
      r.endIt = iterAdd CS ⟨nbc, d.beginIt.inner⟩ ((e - b : Nat) : Int) ∧
      MapInv CS r.map ((eic - bic + k) * 3) r.beginChunk r.endChunk
        (nbc * CS + d.beginIt.inner) (nbc * CS + d.beginIt.inner + (e - b)) ∧
      r.beginChunk ≤ nbc ∧ nbc + (eic - bic) + k ≤ r.endChunk ∧
      window CS r.map (nbc * CS + d.beginIt.inner) (e - b) =
        window CS d.map b (e - b) := by
  intro r nbc hr hnbc
  have hml := hmi.hlen
  have hbc1 := hmi.hbc
  have hbce := hmi.hbe
  have hecn := hmi.hec
  have hble := hmi.hble
  have hblin : b = bic * CS + d.beginIt.inner := by
    rw [hb, hbic]
    rfl
  have hbe_io : bic ≤ eic := by
    by_contra hc
    have h1 : (eic + 1) * CS ≤ bic * CS := Nat.mul_le_mul_right CS (by omega)
    have h2 : (eic + 1) * CS = eic * CS + CS := by ring
    omega
  have hnel : iterSub CS d.endIt d.beginIt = ((e - b : Nat) : Int) := by
    rw [iterSub_eq, ← hb, ← he]
    omega
  have hnelN : (iterSub CS d.endIt d.beginIt).toNat = e - b := by
    rw [hnel]
    rfl
  have hy3 := mul_sub_expand eic bic CS hbe_io
  have hy4 : (nbc + (eic - bic)) * CS = nbc * CS + (eic - bic) * CS := by ring
  simp only [reallocate_end] at hr
  rw [hnelN, ← hnbc] at hr
  split at hr
  · -- enough free chunks on the left: steal them instead of allocating
    rename_i hbr
    dsimp only at hr
    obtain ⟨remain, hrem⟩ : ∃ x,
        ((bic : Int) - (((nbc + (eic - bic + k) : Nat) : Int) -
            ((nbc + (d.endChunk - bic) : Nat) : Int)) -
          Int.tdiv ((bic : Int) - (d.beginChunk : Int) -
            (((nbc + (eic - bic + k) : Nat) : Int) -
              ((nbc + (d.endChunk - bic) : Nat) : Int))) 2).toNat = x := ⟨_, rfl⟩
    rw [hrem] at hr
    have htd : Int.tdiv ((bic : Int) - (d.beginChunk : Int) -
        (((nbc + (eic - bic + k) : Nat) : Int) -
          ((nbc + (d.endChunk - bic) : Nat) : Int))) 2 =
        ((bic : Int) - (d.beginChunk : Int) -
        (((nbc + (eic - bic + k) : Nat) : Int) -
          ((nbc + (d.endChunk - bic) : Nat) : Int))) / 2 :=
      Int.tdiv_eq_ediv (by omega) (by norm_num)
    rw [htd] at hrem
    have hf1 : d.beginChunk ≤ remain := by omega
    have hf2 : remain ≤ bic := by omega
    have hf3 : remain - d.beginChunk ≤ eic - bic + k := by omega
    have hf4 : nbc + (d.endChunk - bic) + (bic - remain) ≤ (eic - bic + k) * 3 + 1 := by
      omega
    have hc1 := slotAt_copySeg d.map bic
      (List.replicate ((eic - bic + k) * 3 + 2) (none : Option (Chunk α))) nbc
      (d.endChunk - bic) (by rw [List.length_replicate]; omega)
    have hc2 := slotAt_copySeg d.map remain
      (copySeg d.map bic (List.replicate ((eic - bic + k) * 3 + 2) (none : Option (Chunk α)))
        nbc (d.endChunk - bic)) (nbc + (d.endChunk - bic)) (bic - remain)
      (by rw [length_copySeg, List.length_replicate]; omega)
    have hc3 := slotAt_copySegBack d.map remain
      (copySeg d.map remain
        (copySeg d.map bic (List.replicate ((eic - bic + k) * 3 + 2) (none : Option (Chunk α)))
          nbc (d.endChunk - bic)) (nbc + (d.endChunk - bic)) (bic - remain))
      nbc (remain - d.beginChunk) (by omega) (by omega)
      (by rw [length_copySeg, length_copySeg, List.length_replicate]; omega)
    have hliveR : ∀ t, nbc ≤ t → t < nbc + (eic - bic) →
        slotAt (copySegBack d.map remain
          (copySeg d.map remain
            (copySeg d.map bic
              (List.replicate ((eic - bic + k) * 3 + 2) (none : Option (Chunk α))) nbc
              (d.endChunk - bic)) (nbc + (d.endChunk - bic)) (bic - remain))
          nbc (remain - d.beginChunk)) t = slotAt d.map (bic + (t - nbc)) := by
      intro t h1 h2
      rw [hc3 t, if_neg (by omega), hc2 t, if_neg (by omega), hc1 t,
        if_pos ⟨h1, by omega⟩]
    have hleftR : ∀ t, nbc - (remain - d.beginChunk) ≤ t → t < nbc →
        slotAt (copySegBack d.map remain
          (copySeg d.map remain
            (copySeg d.map bic
              (List.replicate ((eic - bic + k) * 3 + 2) (none : Option (Chunk α))) nbc
              (d.endChunk - bic)) (nbc + (d.endChunk - bic)) (bic - remain))
          nbc (remain - d.beginChunk)) t = slotAt d.map (remain - (nbc - t)) := by
      intro t h1 h2
      rw [hc3 t, if_pos ⟨h1, h2⟩]
    rw [hr]
    refine ⟨rfl, rfl, rfl, ?_, ?_, ?_, ?_⟩
    · refine mapInv_build CS d.map _ d.numChunks ((eic - bic + k) * 3) d.beginChunk
        d.endChunk b e (nbc - (remain - d.beginChunk)) (nbc + (eic - bic))
        (nbc + (d.endChunk - bic) + (bic - remain))
        (nbc * CS + d.beginIt.inner) (nbc * CS + d.beginIt.inner + (e - b))
        (fun t => if t < nbc then remain - (nbc - t) else bic + (t - nbc))
        hmi ?_ (by omega) (by omega) (by omega) (by omega) (by omega)
        ?_ ?_ ?_ ?_ ?_ ?_
      · rw [length_copySegBack, length_copySeg, length_copySeg, List.length_replicate]
      · intro t h1 h2
        rw [hc3 t, if_neg (by omega), hc2 t, if_neg (by omega), hc1 t,
          if_neg (by omega)]
        exact slotAt_replicate_none _ _
      · intro t h1 h2
        dsimp only
        by_cases ht : t < nbc
        · rw [hleftR t h1 ht, if_pos ht]
        · rw [hliveR t (by omega) h2, if_neg ht]
      · intro t h1 h2
        dsimp only
        split_ifs with ht <;> omega
      · intro t j h1 h2 hj
        dsimp only
        split_ifs with ht
        · have hz1 := lin_lt_of_outer_lt CS (remain - (nbc - t)) bic j hj (by omega)
          have hz2 := lin_lt_of_outer_lt CS t nbc j hj ht
          exact iff_of_false (by omega) (by omega)
        · have hxx := mul_sub_expand t nbc CS (by omega)
          have hx1 : (bic + (t - nbc)) * CS = bic * CS + (t - nbc) * CS := by ring
          omega
      · intro t h1 h2
        by_cases hz : t < nbc + (d.endChunk - bic)
        · rw [hc3 t, if_neg (by omega), hc2 t, if_neg (by omega), hc1 t,
            if_pos ⟨by omega, hz⟩]
          refine dead_chunk_right CS d.map d.numChunks d.beginChunk d.endChunk b e
            hmi (bic + (t - nbc)) (by omega) (by omega) ?_
          have hmm := Nat.mul_le_mul_right CS (show eic ≤ bic + (t - nbc) by omega)
          omega
        · rw [hc3 t, if_neg (by omega), hc2 t, if_pos ⟨by omega, by omega⟩]
          refine dead_chunk_left CS d.map d.numChunks d.beginChunk d.endChunk b e
            hmi (remain + (t - (nbc + (d.endChunk - bic)))) (by omega) (by omega) ?_
          have hmm := Nat.mul_le_mul_right CS
            (show remain + (t - (nbc + (d.endChunk - bic))) + 1 ≤ bic by omega)
          omega
      · intro t j h1 h2 hj
        have hz := lin_ge_of_outer_ge CS t (nbc + (eic - bic)) j h1
        omega
    · show nbc - (remain - d.beginChunk) ≤ nbc
      omega
    · show nbc + (eic - bic) + k ≤ nbc + (d.endChunk - bic) + (bic - remain)
      omega
    · show window CS (copySegBack d.map remain
          (copySeg d.map remain
            (copySeg d.map bic
              (List.replicate ((eic - bic + k) * 3 + 2) (none : Option (Chunk α))) nbc
              (d.endChunk - bic)) (nbc + (d.endChunk - bic)) (bic - remain))
          nbc (remain - d.beginChunk)) (nbc * CS + d.beginIt.inner) (e - b) =
        window CS d.map b (e - b)
      rw [hblin]
      exact window_shift_chunks CS h0 d.map _ bic nbc d.beginIt.inner
        (e - (bic * CS + d.beginIt.inner)) (eic - bic) (by omega)
        (fun u hu => by
          rw [hliveR (nbc + u) (by omega) (by omega)]
          congr 1
          omega)
  · -- not enough free chunks: copy what there is and allocate the rest
    rename_i hbr
    dsimp only at hr
    have hc1 := slotAt_copySeg d.map bic
      (List.replicate ((eic - bic + k) * 3 + 2) (none : Option (Chunk α))) nbc
      (d.endChunk - bic) (by rw [List.length_replicate]; omega)
    have hc2 := slotAt_copySeg d.map d.beginChunk
      (copySeg d.map bic (List.replicate ((eic - bic + k) * 3 + 2) (none : Option (Chunk α)))
        nbc (d.endChunk - bic)) (nbc + (d.endChunk - bic)) (bic - d.beginChunk)
      (by rw [length_copySeg, List.length_replicate]; omega)
    have ha := slotAt_allocRange CS
      (copySeg d.map d.beginChunk
        (copySeg d.map bic (List.replicate ((eic - bic + k) * 3 + 2) (none : Option (Chunk α)))
          nbc (d.endChunk - bic)) (nbc + (d.endChunk - bic)) (bic - d.beginChunk))
      (nbc + (d.endChunk - bic) + (bic - d.beginChunk))
      (nbc + (eic - bic + k) - (nbc + (d.endChunk - bic) + (bic - d.beginChunk)))
      (by rw [length_copySeg, length_copySeg, List.length_replicate]; omega)
    have hliveR : ∀ t, nbc ≤ t → t < nbc + (eic - bic) →
        slotAt (allocRange CS
          (copySeg d.map d.beginChunk
            (copySeg d.map bic
              (List.replicate ((eic - bic + k) * 3 + 2) (none : Option (Chunk α))) nbc
              (d.endChunk - bic)) (nbc + (d.endChunk - bic)) (bic - d.beginChunk))
          (nbc + (d.endChunk - bic) + (bic - d.beginChunk))
          (nbc + (eic - bic + k) - (nbc + (d.endChunk - bic) + (bic - d.beginChunk))))
          t = slotAt d.map (bic + (t - nbc)) := by
      intro t h1 h2
      rw [ha t, if_neg (by omega), hc2 t, if_neg (by omega), hc1 t,
        if_pos ⟨h1, by omega⟩]
    rw [hr]
    refine ⟨rfl, rfl, rfl, ?_, ?_, ?_, ?_⟩
    · refine mapInv_build CS d.map _ d.numChunks ((eic - bic + k) * 3) d.beginChunk
        d.endChunk b e nbc (nbc + (eic - bic)) (nbc + (eic - bic + k))
        (nbc * CS + d.beginIt.inner) (nbc * CS + d.beginIt.inner + (e - b))
        (fun t => bic + (t - nbc))
        hmi ?_ (by omega) (by omega) (by omega) (by omega) (by omega)
        ?_ hliveR ?_ ?_ ?_ ?_
      · rw [length_allocRange, length_copySeg, length_copySeg, List.length_replicate]
      · intro t h1 h2
        rw [ha t, if_neg (by omega), hc2 t, if_neg (by omega), hc1 t,
          if_neg (by omega)]
        exact slotAt_replicate_none _ _
      · intro t h1 h2
        dsimp only
        omega
      · intro t j h1 h2 hj
        dsimp only
        have hxx := mul_sub_expand t nbc CS (by omega)
        have hx1 : (bic + (t - nbc)) * CS = bic * CS + (t - nbc) * CS := by ring
        omega
      · intro t h1 h2
        by_cases hz : t < nbc + (d.endChunk - bic)
        · rw [ha t, if_neg (by omega), hc2 t, if_neg (by omega), hc1 t,
            if_pos ⟨by omega, hz⟩]
          refine dead_chunk_right CS d.map d.numChunks d.beginChunk d.endChunk b e
            hmi (bic + (t - nbc)) (by omega) (by omega) ?_
          have hmm := Nat.mul_le_mul_right CS (show eic ≤ bic + (t - nbc) by omega)
          omega
        · by_cases hz2 : t < nbc + (d.endChunk - bic) + (bic - d.beginChunk)
          · rw [ha t, if_neg (by omega), hc2 t, if_pos ⟨by omega, hz2⟩]
            refine dead_chunk_left CS d.map d.numChunks d.beginChunk d.endChunk b e
              hmi (d.beginChunk + (t - (nbc + (d.endChunk - bic)))) (by omega)
              (by omega) ?_
            have hmm := Nat.mul_le_mul_right CS
              (show d.beginChunk + (t - (nbc + (d.endChunk - bic))) + 1 ≤ bic by omega)
            omega
          · rw [ha t, if_pos ⟨by omega, by omega⟩]
            refine ⟨freshChunk α CS, rfl, by simp [freshChunk], ?_⟩
            intro j
            unfold freshChunk slotAt
            simp only [List.getElem?_replicate]
            split <;> rfl
      · intro t j h1 h2 hj
        have hz := lin_ge_of_outer_ge CS t (nbc + (eic - bic)) j h1
        omega
    · show nbc ≤ nbc
      exact le_rfl
    · show nbc + (eic - bic) + k ≤ nbc + (eic - bic + k)
      omega
    · show window CS (allocRange CS
          (copySeg d.map d.beginChunk
            (copySeg d.map bic
              (List.replicate ((eic - bic + k) * 3 + 2) (none : Option (Chunk α))) nbc
              (d.endChunk - bic)) (nbc + (d.endChunk - bic)) (bic - d.beginChunk))
          (nbc + (d.endChunk - bic) + (bic - d.beginChunk))
          (nbc + (eic - bic + k) - (nbc + (d.endChunk - bic) + (bic - d.beginChunk))))
          (nbc * CS + d.beginIt.inner) (e - b) =
        window CS d.map b (e - b)
      rw [hblin]
      exact window_shift_chunks CS h0 d.map _ bic nbc d.beginIt.inner
        (e - (bic * CS + d.beginIt.inner)) (eic - bic) (by omega)
        (fun u hu => by
          rw [hliveR (nbc + u) (by omega) (by omega)]
          congr 1
          omega)

end AlgoDeque
